import Mathlib

/-!
# Page-fill and streaming ingestion of a paginated tensor

A shallow embedding of `paginated/stream.go` (`Tensor.Stream`, `Tensor.addData`).

The file `stream.go` calls collaborators that are declared elsewhere in the
package: the `Array` type with `Len`, `Slice` and `Copy`, the page directory
(`firstUnfilledPage`), the page cache (`cache.Get`) and `Swap`.  They are modelled
here from the prose specification of the package; each such definition says so in
its doc comment.  `Tensor.addData` and `Tensor.Stream` are translated from the Go
source line by line.

Go's `int` is modelled by `Int`; the only arithmetic performed is on lengths of
in-memory sequences, which stay far below `2^63`.
-/

namespace paginated

/-! ## Errors -/

/-- The error values that can leave `addData` and `Stream`.  `ErrSize`, `ErrFilled`
and `ErrCache` are named in the source; `ErrBounds` and `ErrLength` stand for the
errors of `Array.Slice` and `Array.Copy`, and `ErrSwap` for any failure of the
backing store reported by `Swap`. -/
inductive Error where
  | ErrSize
  | ErrFilled
  | ErrCache
  | ErrBounds
  | ErrLength
  | ErrSwap (code : Nat)
  deriving DecidableEq, Repr

/-- Result of a fallible call: either an error or a value. -/
inductive Res (α : Type) where
  | err (e : Error)
  | ok (a : α)
  deriving DecidableEq, Repr

/-! ## Arrays -/

/-- The reading of the two arguments of `Array.Slice(start, end)`.  The specification
leaves it open ("half-open or inclusive range over existing elements"). -/
inductive Convention where
  | halfOpen
  | inclusive
  deriving DecidableEq, Repr

/-- Modelled from the spec: the `Array` type, which is declared outside `stream.go`.
An array is a view of `len` elements starting at offset `off` of an underlying
storage, so that a slice aliases the storage of its parent. -/
structure Array where
  store : List Int
  off : Nat
  len : Nat
  deriving DecidableEq, Repr

namespace Array

/-- An array that views the whole of a fresh storage. -/
def ofList (xs : List Int) : Array := ⟨xs, 0, xs.length⟩

/-- The elements seen through the view, in order. -/
def elems (a : Array) : List Int := (a.store.drop a.off).take a.len

/-- A view is well formed when it lies inside its storage. -/
def WF (a : Array) : Prop := a.off + a.len ≤ a.store.length

instance (a : Array) : Decidable a.WF := by unfold WF; infer_instance

/-- Modelled from the spec: `Array.Len`, the number of elements of the view. -/
def Len (a : Array) : Int := (a.len : Int)

/-- Modelled from the spec: `Array.Slice(start, end)`, a bounds-checked sub-range
view.  Under `halfOpen` the range is `[start, end)` and needs
`0 ≤ start ≤ end ≤ Len`; under `inclusive` it is `[start, end]` and needs
`0 ≤ start ≤ end < Len`.  Out of bounds is an error. -/
def Slice (c : Convention) (a : Array) (start stop : Int) : Res Array :=
  match c with
  | .halfOpen =>
    if 0 ≤ start ∧ start ≤ stop ∧ stop ≤ a.Len then
      .ok ⟨a.store, a.off + start.toNat, (stop - start).toNat⟩
    else .err .ErrBounds
  | .inclusive =>
    if 0 ≤ start ∧ start ≤ stop ∧ stop < a.Len then
      .ok ⟨a.store, a.off + start.toNat, (stop - start + 1).toNat⟩
    else .err .ErrBounds

/-- Modelled from the spec: `dst.Copy(src)`, a length-checked element-wise overwrite
of the receiver from `src`.  The source has to fit in the receiver (the fill
algorithm copies `min(window.Len(), data.Len())` elements into the window); the
result is the storage behind `dst` after the write. -/
def Copy (dst src : Array) : Res (List Int) :=
  if src.len ≤ dst.len then
    .ok (dst.store.take dst.off ++ src.elems ++ dst.store.drop (dst.off + src.len))
  else .err .ErrLength

end Array

/-! ## Pages, cache and tensor -/

/-- Modelled from the spec: what `Swap` does for a page that is not resident.  It
loads the page, or reports a failure of the backing store, or reports success
without making the page resident (the contract violation behind `ErrCache`). -/
inductive SwapOutcome where
  | loads
  | silent
  | fails (e : Error)
  deriving DecidableEq, Repr

/-- Calls made to the page cache, in the order they are made. -/
inductive Event where
  | get (id : Nat)
  | swap (id : Nat)
  deriving DecidableEq, Repr

/-- Modelled from the spec: a page of the tensor.  `Id` and `Datasize` are the fields
used by `addData`.  The page's array is kept with the page: `elems` is the storage
the cache hands out for `Id` (page identifiers are distinct), `resident` tells
whether `cache.Get(Id)` hits, and `swap` what `Swap(Id)` does on a miss. -/
structure Page where
  Id : Nat
  Datasize : Int
  elems : List Int
  resident : Bool
  swap : SwapOutcome
  deriving DecidableEq, Repr

/-- The capacity of a page: the length of its array. -/
def Page.capacity (pg : Page) : Int := (pg.elems.length : Int)

/-- Modelled from the spec: the tensor, declared outside `stream.go`.  It has a
dimension count, its pages in write order, and the log of cache calls. -/
structure Tensor where
  dims : Nat
  pages : List Page
  trace : List Event
  deriving DecidableEq, Repr

namespace Tensor

/-- Modelled from the spec: `Tensor.Dims`, the dimension count. -/
def Dims (p : Tensor) : Nat := p.dims

/-- Position of the first page of a list with `Datasize < capacity`. -/
def firstUnfilled : List Page → Option Nat
  | [] => none
  | pg :: rest =>
    if pg.Datasize < pg.capacity then some 0
    else (firstUnfilled rest).map (· + 1)

/-- Modelled from the spec: `Tensor.firstUnfilledPage`, the lowest-ordered page that
is not yet filled (`Datasize < capacity`), as its position in the page sequence;
`none` when every page is filled. -/
def firstUnfilledPage (p : Tensor) : Option Nat := firstUnfilled p.pages

/-- A page that stands for a position outside the page sequence. -/
def noPage : Page := ⟨0, 0, [], false, .silent⟩

/-- The page at position `i`. -/
def page (p : Tensor) (i : Nat) : Page := p.pages.getD i noPage

/-- Replace the page at position `i`. -/
def setPage (p : Tensor) (i : Nat) (pg : Page) : Tensor :=
  { p with pages := p.pages.set i pg }

/-- Record a call to the cache. -/
def log (p : Tensor) (e : Event) : Tensor :=
  { p with trace := p.trace ++ [e] }

/-- Lines 56-69 of `addData`: obtain the array of the page at position `i` from the
cache, swapping it in after a miss.  `cache.Get`, `Swap` are modelled from the spec. -/
def lookup (p : Tensor) (i : Nat) : Tensor × Res Array :=
  let pg := p.page i
  let p1 := p.log (.get pg.Id)
  if pg.resident then (p1, .ok (Array.ofList pg.elems))
  else
    let p2 := p1.log (.swap pg.Id)
    match pg.swap with
    | .fails e => (p2, .err e)
    | .silent => (p2.log (.get pg.Id), .err .ErrCache)
    | .loads =>
      ((p2.setPage i { pg with resident := true }).log (.get pg.Id),
        .ok (Array.ofList pg.elems))

/-- Lines 71-78 of `addData`: the writable window of the page array. -/
def window (c : Convention) (pg : Page) (pageData : Array) : Res Array :=
  if pg.Datasize > 0 then
    Array.Slice c pageData (pg.Datasize - 1) (pageData.Len - 1)
  else .ok pageData

/-- What one activation of `addData` does before it returns or calls itself. -/
inductive Outcome where
  | ret (p : Tensor) (err : Option Error)
  | recurse (p : Tensor) (remaining : Array)
  deriving DecidableEq, Repr

/-- Lines 81-84 of `addData`: `capacity`, the smaller of the window length and the
data length. -/
def fit (data pageData : Array) : Int :=
  if data.Len < pageData.Len then data.Len else pageData.Len

/-- Lines 91-95 of `addData` after a successful `Copy`: the page array holds the
copied elements and `page.Datasize += slice.Len()`. -/
def advance (p : Tensor) (i : Nat) (written : List Int) (slice : Array) : Tensor :=
  p.setPage i
    { p.page i with elems := written, Datasize := (p.page i).Datasize + slice.Len }

/-- Lines 56-107 of `addData`, with `page` the page at position `i`: fetch the page
array, take the writable window, copy the leading part of `data` into it, advance
`Datasize`, and return or call `addData` on the rest. -/
def fill (c : Convention) (p : Tensor) (i : Nat) (data : Array) : Outcome :=
  match p.lookup i with
  | (p1, .err e) => .ret p1 (some e)
  | (p1, .ok d) =>
    match window c (p1.page i) d with
    | .err e => .ret p1 (some e)
    | .ok pageData =>
      match Array.Slice c data 0 (fit data pageData) with
      | .err e => .ret p1 (some e)
      | .ok slice =>
        match pageData.Copy slice with
        | .err e => .ret p1 (some e)
        | .ok written =>
          if slice.Len < data.Len then
            match Array.Slice c data slice.Len (data.Len - 1) with
            | .err e => .ret (p1.advance i written slice) (some e)
            | .ok remaining => .recurse (p1.advance i written slice) remaining
          else .ret (p1.advance i written slice) none

/-- One activation of `addData` (lines 50-108), up to its `return` or its recursive
call: select the first unfilled page (lines 51-54), then fill it. -/
def step (c : Convention) (p : Tensor) (data : Array) : Outcome :=
  match p.firstUnfilledPage with
  | none => .ret p (some .ErrFilled)
  | some i => fill c p i data

/-- The activation of `addData` on `data` reached line 95: page `i` is the frontier
page, `p1` the tensor after the cache lookup, `w` the writable window, `s` the slice
of the data that was copied and `wr` the page storage after `Copy`. -/
structure Copied (c : Convention) (p : Tensor) (data : Array) (i : Nat) (p1 : Tensor)
    (w s : Array) (wr : List Int) : Prop where
  front : p.firstUnfilledPage = some i
  look : p.lookup i = (p1, .ok (Array.ofList (p.page i).elems))
  win : window c (p1.page i) (Array.ofList (p.page i).elems) = .ok w
  sl : Array.Slice c data 0 (fit data w) = .ok s
  cp : w.Copy s = .ok wr

/-- The tensor an activation leaves behind. -/
def Outcome.tensor : Outcome → Tensor
  | .ret p _ => p
  | .recurse p _ => p

/-- The recursion of `addData` with a bound on the number of activations; `none`
when the bound is reached. -/
def addDataFuel (c : Convention) : Nat → Tensor → Array → Option (Tensor × Option Error)
  | 0, _, _ => none
  | n + 1, p, data =>
    match step c p data with
    | .ret p1 err => some (p1, err)
    | .recurse p1 remaining => addDataFuel c n p1 remaining

/-- `Tensor.addData`: the final tensor and the returned error (`none` for `nil`).
Every recursive call receives a shorter array, so `data.len + 1` activations are
enough. -/
def addData (c : Convention) (p : Tensor) (data : Array) : Option (Tensor × Option Error) :=
  addDataFuel c (data.len + 1) p data

end Tensor

/-! ## The stream handle -/

/-- A channel created by `make(chan T, n)`, with its buffer size. -/
structure Chan where
  buffer : Nat
  deriving DecidableEq, Repr

/-- The `Stream` struct: the embedded tensor pointer and the two channels.  `none` is
the zero value of the field, as in `&Stream{}`. -/
structure Stream where
  Tensor : Option Tensor
  data : Option Chan
  finalize : Option Chan
  deriving DecidableEq, Repr

/-- What a call of `Tensor.Stream` has done when it returns: the handle and the error
it returns, the channels it has made, the number of actors (goroutines) it has
started, and the tensor as the call leaves it. -/
structure Started where
  stream : Stream
  err : Option Error
  channels : List Chan
  actors : Nat
  tensor : Tensor
  deriving DecidableEq, Repr

/-- `Tensor.Stream` (lines 13-37): the size check, then the two channels, the actor
and the handle. -/
def Tensor.Stream (p : Tensor) (mutable : List Bool) : Started :=
  if mutable.length ≠ p.Dims then
    ⟨⟨none, none, none⟩, some .ErrSize, [], 0, p⟩
  else
    let dataChan : Chan := ⟨1⟩
    let finalizeChan : Chan := ⟨1⟩
    ⟨⟨some p, some dataChan, some finalizeChan⟩, none, [dataChan, finalizeChan], 1, p⟩

/-! ## The actor -/

/-- What the actor can receive: a data unit on the data channel or the finalize
signal. -/
inductive Signal where
  | data (d : Array)
  | finalize
  deriving DecidableEq, Repr

/-- The goroutine started by `Tensor.Stream` (lines 21-30) and its two channels:
the tensor it writes to, whether it is waiting in its `select`, and whether each
channel is still open. -/
structure Actor where
  tensor : Tensor
  waiting : Bool
  dataOpen : Bool
  finalizeOpen : Bool
  deriving DecidableEq, Repr

namespace Actor

/-- The actor as `Tensor.Stream` starts it: waiting in `select`, both channels open. -/
def start (p : Tensor) : Actor := ⟨p, true, true, true⟩

/-- The tensor after `p.addData(data)`; the returned error is dropped (line 24). -/
def written (c : Convention) (p : Tensor) (d : Array) : Tensor :=
  match p.addData c d with
  | some (p1, _) => p1
  | none => p

/-- One signal offered to the actor (lines 22-29).  The `select` runs once: a data
unit is passed to `addData`, the finalize signal closes both channels, and in both
cases the goroutine returns.  A goroutine that has returned receives nothing. -/
def receive (c : Convention) (a : Actor) (s : Signal) : Actor :=
  if a.waiting then
    match s with
    | .data d => { a with tensor := written c a.tensor d, waiting := false }
    | .finalize => { a with waiting := false, dataOpen := false, finalizeOpen := false }
  else a

/-- The signals of a list offered to the actor in order. -/
def run (c : Convention) (a : Actor) (ss : List Signal) : Actor :=
  ss.foldl (receive c) a

end Actor

namespace Tensor

/-! ## Observations and invariants of a tensor state -/

/-- The `Datasize` of every page, in page order. -/
def Datasizes (p : Tensor) : List Int := p.pages.map (·.Datasize)

/-- The contents and the `Datasize` of every page, in page order. -/
def content (p : Tensor) : List (Int × List Int) := p.pages.map (fun pg => (pg.Datasize, pg.elems))

/-- Every page satisfies `0 ≤ Datasize ≤ capacity`. -/
def Bounded (p : Tensor) : Prop :=
  ∀ pg ∈ p.pages, 0 ≤ pg.Datasize ∧ pg.Datasize ≤ pg.capacity

instance (p : Tensor) : Decidable p.Bounded := by unfold Bounded; infer_instance

/-- No gaps in the fill order: every page that precedes a page with `Datasize > 0`
is completely filled. -/
def WellOrdered (p : Tensor) : Prop :=
  ∀ j, j < p.pages.length → ∀ i, i < j → 0 < (p.page j).Datasize →
    (p.page i).Datasize = (p.page i).capacity

instance (p : Tensor) : Decidable p.WellOrdered := by unfold WellOrdered; infer_instance

/-- The number of pages that are not filled (`Datasize < capacity`). -/
def unfilledCount (p : Tensor) : Nat :=
  p.content.countP (fun x => decide (x.1 < (x.2.length : Int)))

/-- The sum of the `Datasize` of all pages. -/
def DatasizeSum (p : Tensor) : Int := p.Datasizes.sum

/-- The number of recursive calls `addData` makes, counted along the recursion of
`addDataFuel`. -/
def recursions (c : Convention) : Nat → Tensor → Array → Nat
  | 0, _, _ => 0
  | n + 1, p, data =>
    match step c p data with
    | .ret _ _ => 0
    | .recurse p1 remaining => recursions c n p1 remaining + 1

/-- The number of recursive calls made by `addData(data)`. -/
def addDataCalls (c : Convention) (p : Tensor) (data : Array) : Nat :=
  recursions c (data.len + 1) p data

/-- The tensor with every page resident in the cache. -/
def residentAll (p : Tensor) : Tensor :=
  { p with pages := p.pages.map (fun pg => { pg with resident := true }) }

/-- The number of calls `Swap(id)` in a log of cache calls. -/
def swapCalls (id : Nat) (t : List Event) : Nat := t.count (Event.swap id)

/-- Every page is resident or can be loaded by `Swap`. -/
def Loadable (p : Tensor) : Prop :=
  ∀ pg ∈ p.pages, pg.resident = true ∨ pg.swap = .loads

instance (p : Tensor) : Decidable p.Loadable := by unfold Loadable; infer_instance

/-- The page identifiers are pairwise distinct. -/
def DistinctIds (p : Tensor) : Prop := (p.pages.map (·.Id)).Nodup

instance (p : Tensor) : Decidable p.DistinctIds := by unfold DistinctIds; infer_instance

/-- The pages `addData` visits: the position of the frontier page of each
activation (the page `firstUnfilledPage` selects at lines 51-54 and whose array
lines 56-69 fetch), in order, counted along the recursion of `addDataFuel`. -/
def frontiers (c : Convention) : Nat → Tensor → Array → List Nat
  | 0, _, _ => []
  | n + 1, p, data =>
    match p.firstUnfilledPage with
    | none => []
    | some i =>
      match step c p data with
      | .ret _ _ => [i]
      | .recurse p1 remaining => i :: frontiers c n p1 remaining

/-- The pages visited by `addData(data)`. -/
def visited (c : Convention) (p : Tensor) (data : Array) : List Nat :=
  frontiers c (data.len + 1) p data

/-! ## Example states -/

/-- A resident page with the given identifier, `Datasize` and array. -/
def residentPage (id : Nat) (ds : Int) (xs : List Int) : Page := ⟨id, ds, xs, true, .loads⟩

/-- Scenario A of the specification: a tensor of 2 empty pages of capacity 4. -/
def scenarioA : Tensor :=
  ⟨1, [residentPage 0 0 [0, 0, 0, 0], residentPage 1 0 [0, 0, 0, 0]], []⟩

/-- A tensor whose 2 pages of capacity 2 are both filled; the first page is not
resident in the cache. -/
def filledTensor : Tensor :=
  ⟨1, [⟨0, 2, [1, 2], false, .loads⟩, residentPage 1 2 [3, 4]], []⟩

/-- A tensor of 2 empty pages of capacity 2. -/
def smallTensor : Tensor :=
  ⟨1, [residentPage 0 0 [0, 0], residentPage 1 0 [0, 0]], []⟩

/-- A tensor whose only page holds 2 elements out of 4. -/
def halfPage : Tensor :=
  ⟨1, [residentPage 0 2 [1, 2, 0, 0]], []⟩

/-- A tensor whose only page is not resident and cannot be loaded. -/
def unloadable : Tensor :=
  ⟨1, [⟨0, 0, [0, 0], false, .fails (.ErrSwap 7)⟩], []⟩

/-- A tensor with a corrupted page: `Datasize` exceeds the capacity. -/
def corrupted : Tensor :=
  ⟨1, [residentPage 0 5 [1, 2]], []⟩

/-- A tensor whose only page holds 1 element out of 2 and is not resident; `Swap`
loads it. -/
def evicted : Tensor :=
  ⟨1, [⟨0, 1, [5, 0], false, .loads⟩], []⟩

/-- A tensor whose only page is not resident and stays so after a `Swap` that
reports success. -/
def inconsistent : Tensor :=
  ⟨1, [⟨0, 0, [0, 0], false, .silent⟩], []⟩

/-- Scenario A with both pages evicted: 2 empty pages of capacity 4, neither
resident, both loadable. -/
def scenarioAEvicted : Tensor :=
  ⟨1, [⟨0, 0, [0, 0, 0, 0], false, .loads⟩, ⟨1, 0, [0, 0, 0, 0], false, .loads⟩], []⟩

/-- A tensor of 3 empty pages of capacity 2: the first is resident, the other two
are not and can be loaded. -/
def mixedTensor : Tensor :=
  ⟨1, [residentPage 0 0 [0, 0], ⟨1, 0, [0, 0], false, .loads⟩,
    ⟨2, 0, [0, 0], false, .loads⟩], []⟩

end Tensor

/-! ## Arrays: basic facts -/

namespace Array

theorem ofList_WF (xs : List Int) : (ofList xs).WF := by
  simp [WF, ofList]

theorem elems_ofList (xs : List Int) : (ofList xs).elems = xs := by
  simp [elems, ofList]

theorem length_elems {a : Array} (h : a.WF) : a.elems.length = a.len := by
  unfold WF at h
  simp only [elems, List.length_take, List.length_drop]
  omega

theorem Slice_halfOpen_ok {a b : Array} {s t : Int} :
    Slice .halfOpen a s t = .ok b ↔
      (0 ≤ s ∧ s ≤ t ∧ t ≤ a.Len) ∧ b = ⟨a.store, a.off + s.toNat, (t - s).toNat⟩ := by
  unfold Slice
  by_cases h : 0 ≤ s ∧ s ≤ t ∧ t ≤ a.Len
  · simp only [h, and_self, if_true, Res.ok.injEq, true_and]
    exact eq_comm
  · simp [h]

theorem Slice_inclusive_ok {a b : Array} {s t : Int} :
    Slice .inclusive a s t = .ok b ↔
      (0 ≤ s ∧ s ≤ t ∧ t < a.Len) ∧ b = ⟨a.store, a.off + s.toNat, (t - s + 1).toNat⟩ := by
  unfold Slice
  by_cases h : 0 ≤ s ∧ s ≤ t ∧ t < a.Len
  · simp only [h, and_self, if_true, Res.ok.injEq, true_and]
    exact eq_comm
  · simp [h]

theorem Slice_err {c : Convention} {a : Array} {s t : Int} {e : Error}
    (h : Slice c a s t = .err e) : e = .ErrBounds := by
  unfold Slice at h
  cases c <;> simp only at h <;> split at h <;> simp_all

theorem Slice_store {c : Convention} {a b : Array} {s t : Int}
    (h : Slice c a s t = .ok b) : b.store = a.store := by
  cases c
  · rw [Slice_halfOpen_ok] at h; rw [h.2]
  · rw [Slice_inclusive_ok] at h; rw [h.2]

theorem Slice_WF {c : Convention} {a b : Array} {s t : Int} (ha : a.WF)
    (h : Slice c a s t = .ok b) : b.WF := by
  unfold WF at *
  cases c
  · rw [Slice_halfOpen_ok] at h
    obtain ⟨⟨h0, h1, h2⟩, rfl⟩ := h
    simp only [Len] at h2 ⊢
    omega
  · rw [Slice_inclusive_ok] at h
    obtain ⟨⟨h0, h1, h2⟩, rfl⟩ := h
    simp only [Len] at h2 ⊢
    omega

theorem Copy_ok {dst src : Array} {wr : List Int} :
    Copy dst src = .ok wr ↔
      src.len ≤ dst.len ∧
        wr = dst.store.take dst.off ++ src.elems ++ dst.store.drop (dst.off + src.len) := by
  unfold Copy
  by_cases h : src.len ≤ dst.len
  · simp only [h, if_true, Res.ok.injEq, true_and]
    exact eq_comm
  · simp [h]

theorem Copy_err {dst src : Array} {e : Error} (h : Copy dst src = .err e) :
    e = .ErrLength ∧ dst.len < src.len := by
  unfold Copy at h
  split at h
  · simp at h
  · simp only [Res.err.injEq] at h
    exact ⟨h.symm, by omega⟩

theorem Copy_length {dst src : Array} {wr : List Int} (hd : dst.WF) (hs : src.WF)
    (h : Copy dst src = .ok wr) : wr.length = dst.store.length := by
  rw [Copy_ok] at h
  obtain ⟨hle, rfl⟩ := h
  have := length_elems hs
  unfold WF at hd
  simp only [List.length_append, List.length_take, List.length_drop, this]
  omega

end Array

namespace Tensor

theorem page_eq (p : Tensor) (i : Nat) : p.page i = (p.pages[i]?).getD noPage := by
  simp [page, List.getD_eq_getElem?_getD]

theorem firstUnfilled_some {ps : List Page} {i : Nat} (h : firstUnfilled ps = some i) :
    i < ps.length ∧ (ps.getD i noPage).Datasize < (ps.getD i noPage).capacity ∧
      ∀ j, j < i → ¬ (ps.getD j noPage).Datasize < (ps.getD j noPage).capacity := by
  induction ps generalizing i with
  | nil => simp [firstUnfilled] at h
  | cons pg rest ih =>
    unfold firstUnfilled at h
    split at h
    · cases h
      simpa using ‹pg.Datasize < pg.capacity›
    · rename_i hpg
      cases hr : firstUnfilled rest with
      | none => simp [hr] at h
      | some k =>
        simp only [hr, Option.map_some', Option.some.injEq] at h
        subst h
        obtain ⟨h1, h2, h3⟩ := ih hr
        refine ⟨by simpa using h1, by simpa using h2, ?_⟩
        intro j hj
        cases j with
        | zero => simpa using hpg
        | succ j => simpa using h3 j (by omega)

theorem firstUnfilled_none {ps : List Page} :
    firstUnfilled ps = none ↔ ∀ pg ∈ ps, ¬ pg.Datasize < pg.capacity := by
  induction ps with
  | nil => simp [firstUnfilled]
  | cons pg rest ih =>
    unfold firstUnfilled
    by_cases hpg : pg.Datasize < pg.capacity
    · simp [hpg]
    · simp only [hpg, if_false, Option.map_eq_none', ih, List.mem_cons, forall_eq_or_imp,
        not_false_eq_true, true_and]

/-! ## The cache lookup -/

theorem page_lt {p : Tensor} {i : Nat} (h : i < p.pages.length) : p.page i = p.pages[i] := by
  simp [page, List.getD_eq_getElem?_getD, List.getElem?_eq_getElem h]

theorem page_ge {p : Tensor} {i : Nat} (h : p.pages.length ≤ i) : p.page i = noPage := by
  simp [page, List.getD_eq_getElem?_getD, List.getElem?_eq_none h]

theorem setPage_length (p : Tensor) (i : Nat) (pg : Page) :
    (p.setPage i pg).pages.length = p.pages.length := by
  simp [setPage]

theorem setPage_page (p : Tensor) (i j : Nat) (pg : Page) :
    (p.setPage i pg).page j = if j = i ∧ i < p.pages.length then pg else p.page j := by
  simp only [page, setPage, List.getD_eq_getElem?_getD, List.getElem?_set]
  by_cases hji : j = i
  · subst hji
    by_cases hlt : j < p.pages.length
    · simp [hlt]
    · simp [hlt, List.getElem?_eq_none (not_lt.mp hlt)]
  · have : ¬ i = j := fun h => hji h.symm
    simp [hji, this]

theorem log_pages (p : Tensor) (e : Event) : (p.log e).pages = p.pages := rfl

theorem log_page (p : Tensor) (e : Event) (j : Nat) : (p.log e).page j = p.page j := rfl

/-- The cache lookup changes no page except, possibly, the residency of page `i`. -/
theorem lookup_page (p : Tensor) (i j : Nat) :
    (p.lookup i).1.page j = p.page j ∨
      (j = i ∧ (p.lookup i).1.page j = { p.page j with resident := true }) := by
  unfold lookup
  simp only
  split
  · left; rfl
  · split
    · left; rfl
    · left; rfl
    · simp only [log_page, setPage_page]
      split
      · rename_i h
        right
        obtain ⟨rfl, _⟩ := h
        exact ⟨rfl, rfl⟩
      · left; rfl

theorem lookup_length (p : Tensor) (i : Nat) :
    (p.lookup i).1.pages.length = p.pages.length := by
  unfold lookup
  simp only
  split
  · rfl
  · split <;> simp [log, setPage]

theorem lookup_dims (p : Tensor) (i : Nat) : (p.lookup i).1.dims = p.dims := by
  unfold lookup
  simp only
  split
  · rfl
  · split <;> rfl

theorem lookup_ok {p p1 : Tensor} {i : Nat} {d : Array} (h : p.lookup i = (p1, .ok d)) :
    d = Array.ofList (p.page i).elems := by
  unfold lookup at h
  simp only at h
  split at h
  · simp only [Prod.mk.injEq, Res.ok.injEq] at h
    exact h.2.symm
  · split at h
    · simp at h
    · simp at h
    · simp only [Prod.mk.injEq, Res.ok.injEq] at h
      exact h.2.symm

theorem lookup_Datasize (p : Tensor) (i j : Nat) :
    ((p.lookup i).1.page j).Datasize = (p.page j).Datasize := by
  rcases lookup_page p i j with h | ⟨_, h⟩ <;> rw [h]

theorem lookup_elems (p : Tensor) (i j : Nat) :
    ((p.lookup i).1.page j).elems = (p.page j).elems := by
  rcases lookup_page p i j with h | ⟨_, h⟩ <;> rw [h]

theorem advance_length (p : Tensor) (i : Nat) (wr : List Int) (s : Array) :
    (p.advance i wr s).pages.length = p.pages.length := by
  simp [advance, setPage]

theorem advance_page (p : Tensor) (i j : Nat) (wr : List Int) (s : Array) :
    (p.advance i wr s).page j =
      if j = i ∧ i < p.pages.length then
        { p.page i with elems := wr, Datasize := (p.page i).Datasize + s.Len }
      else p.page j := by
  simp only [advance, setPage_page]

/-! ## One activation of `addData` -/

/-- Case analysis of one activation, following the returns of the source in order. -/
theorem step_cases (c : Convention) (p : Tensor) (data : Array) (motive : Outcome → Prop)
    (hFilled : p.firstUnfilledPage = none → motive (.ret p (some .ErrFilled)))
    (hLookup : ∀ i p1 e, p.firstUnfilledPage = some i → p.lookup i = (p1, .err e) →
      motive (.ret p1 (some e)))
    (hWindow : ∀ i p1 e, p.firstUnfilledPage = some i →
      p.lookup i = (p1, .ok (Array.ofList (p.page i).elems)) →
      window c (p1.page i) (Array.ofList (p.page i).elems) = .err e →
      motive (.ret p1 (some e)))
    (hSlice : ∀ i p1 w e, p.firstUnfilledPage = some i →
      p.lookup i = (p1, .ok (Array.ofList (p.page i).elems)) →
      window c (p1.page i) (Array.ofList (p.page i).elems) = .ok w →
      Array.Slice c data 0 (fit data w) = .err e → motive (.ret p1 (some e)))
    (hCopy : ∀ i p1 w s e, p.firstUnfilledPage = some i →
      p.lookup i = (p1, .ok (Array.ofList (p.page i).elems)) →
      window c (p1.page i) (Array.ofList (p.page i).elems) = .ok w →
      Array.Slice c data 0 (fit data w) = .ok s → w.Copy s = .err e →
      motive (.ret p1 (some e)))
    (hRest : ∀ i p1 w s wr e, Copied c p data i p1 w s wr → s.Len < data.Len →
      Array.Slice c data s.Len (data.Len - 1) = .err e →
      motive (.ret (p1.advance i wr s) (some e)))
    (hRec : ∀ i p1 w s wr r, Copied c p data i p1 w s wr → s.Len < data.Len →
      Array.Slice c data s.Len (data.Len - 1) = .ok r →
      motive (.recurse (p1.advance i wr s) r))
    (hDone : ∀ i p1 w s wr, Copied c p data i p1 w s wr → ¬ s.Len < data.Len →
      motive (.ret (p1.advance i wr s) none)) :
    motive (step c p data) := by
  unfold step
  cases hf : p.firstUnfilledPage with
  | none => exact hFilled hf
  | some i =>
    simp only
    unfold fill
    cases hl : p.lookup i with
    | mk p1 r =>
      cases r with
      | err e => exact hLookup i p1 e hf hl
      | ok d =>
        have hd := lookup_ok hl
        subst hd
        simp only
        cases hw : window c (p1.page i) (Array.ofList (p.page i).elems) with
        | err e => exact hWindow i p1 e hf hl hw
        | ok w =>
          simp only
          cases hs : Array.Slice c data 0 (fit data w) with
          | err e => exact hSlice i p1 w e hf hl hw hs
          | ok s =>
            simp only
            cases hc : w.Copy s with
            | err e => exact hCopy i p1 w s e hf hl hw hs hc
            | ok wr =>
              have hC : Copied c p data i p1 w s wr := ⟨hf, hl, hw, hs, hc⟩
              simp only
              by_cases hlt : s.Len < data.Len
              · rw [if_pos hlt]
                cases hr : Array.Slice c data s.Len (data.Len - 1) with
                | err e => exact hRest i p1 w s wr e hC hlt hr
                | ok r => exact hRec i p1 w s wr r hC hlt hr
              · rw [if_neg hlt]
                exact hDone i p1 w s wr hC hlt

namespace Copied

variable {c : Convention} {p p1 : Tensor} {data w s : Array} {i : Nat} {wr : List Int}

theorem index_lt (h : Copied c p data i p1 w s wr) : i < p.pages.length :=
  (firstUnfilled_some h.front).1

theorem unfilled (h : Copied c p data i p1 w s wr) :
    (p.page i).Datasize < (p.page i).capacity :=
  (firstUnfilled_some h.front).2.1

theorem p1_eq (h : Copied c p data i p1 w s wr) : p1 = (p.lookup i).1 := by
  rw [h.look]

theorem p1_Datasize (h : Copied c p data i p1 w s wr) (j : Nat) :
    (p1.page j).Datasize = (p.page j).Datasize := by
  rw [h.p1_eq]; exact lookup_Datasize p i j

theorem p1_elems (h : Copied c p data i p1 w s wr) (j : Nat) :
    (p1.page j).elems = (p.page j).elems := by
  rw [h.p1_eq]; exact lookup_elems p i j

theorem p1_length (h : Copied c p data i p1 w s wr) : p1.pages.length = p.pages.length := by
  rw [h.p1_eq]; exact lookup_length p i

/-- Under the inclusive reading `data.Slice(0, capacity)` has one element more than
the window, so `Copy` fails: a copy succeeds only under the half-open reading. -/
theorem halfOpen (h : Copied c p data i p1 w s wr) : c = .halfOpen := by
  cases c with
  | halfOpen => rfl
  | inclusive =>
    exfalso
    have hs := h.sl
    have hc := h.cp
    rw [Array.Slice_inclusive_ok] at hs
    rw [Array.Copy_ok] at hc
    obtain ⟨⟨_, h1, h2⟩, rfl⟩ := hs
    have hle := hc.1
    simp only [fit, Array.Len] at h1 h2 hle
    split at h2 <;> split at hle <;> omega

/-- The writable window under the half-open reading: it starts at position
`Datasize - 1` when `Datasize > 0`, and is the whole page array otherwise. -/
theorem window_eq (h : Copied .halfOpen p data i p1 w s wr) :
    w = if (p.page i).Datasize > 0 then
          ⟨(p.page i).elems, ((p.page i).Datasize - 1).toNat,
            ((p.page i).capacity - (p.page i).Datasize).toNat⟩
        else Array.ofList (p.page i).elems := by
  have hw := h.win
  unfold window at hw
  rw [h.p1_Datasize i] at hw
  by_cases hpos : (p.page i).Datasize > 0
  · rw [if_pos hpos] at hw
    rw [if_pos hpos]
    rw [Array.Slice_halfOpen_ok] at hw
    rw [hw.2]
    simp only [Array.ofList, Array.Len, Page.capacity, Array.mk.injEq, true_and]
    constructor
    · omega
    · congr 1; omega
  · rw [if_neg hpos] at hw
    rw [if_neg hpos]
    simp only [Res.ok.injEq] at hw
    exact hw.symm

theorem window_store (h : Copied .halfOpen p data i p1 w s wr) :
    w.store = (p.page i).elems := by
  rw [h.window_eq]; split <;> rfl

/-- The window lies inside the page array and ends one position before the end of
the array when `Datasize > 0`. -/
theorem window_bounds (h : Copied .halfOpen p data i p1 w s wr) :
    ((p.page i).Datasize > 0 →
        (w.off : Int) = (p.page i).Datasize - 1 ∧
        (w.len : Int) = (p.page i).capacity - (p.page i).Datasize) ∧
    (¬ (p.page i).Datasize > 0 → w.off = 0 ∧ w.len = (p.page i).elems.length) := by
  have hu := h.unfilled
  rw [h.window_eq]
  constructor
  · intro hpos
    rw [if_pos hpos]
    simp only [Page.capacity] at hu ⊢
    omega
  · intro hpos
    rw [if_neg hpos]
    exact ⟨rfl, rfl⟩

theorem window_WF (h : Copied .halfOpen p data i p1 w s wr) : w.WF := by
  have hu := h.unfilled
  have hb := h.window_bounds
  have hs := h.window_store
  unfold Array.WF
  rw [hs]
  simp only [Page.capacity] at hu hb
  by_cases hpos : (p.page i).Datasize > 0
  · have := hb.1 hpos; omega
  · have := hb.2 hpos; omega

/-- The slice that is copied is the leading `min(data.Len, window.Len)` elements of
the data. -/
theorem slice_eq (h : Copied .halfOpen p data i p1 w s wr) :
    s = ⟨data.store, data.off, min data.len w.len⟩ := by
  have hs := h.sl
  rw [Array.Slice_halfOpen_ok] at hs
  obtain ⟨_, rfl⟩ := hs
  simp only [fit, Array.Len, Array.mk.injEq, true_and]
  constructor
  · simp
  · split <;> omega

theorem slice_len (h : Copied .halfOpen p data i p1 w s wr) : s.len = min data.len w.len := by
  rw [h.slice_eq]

theorem slice_WF (h : Copied .halfOpen p data i p1 w s wr) (hd : data.WF) : s.WF := by
  rw [h.slice_eq]
  unfold Array.WF at *
  simp only
  omega

theorem written_eq (h : Copied .halfOpen p data i p1 w s wr) :
    wr = (p.page i).elems.take w.off ++ s.elems ++ (p.page i).elems.drop (w.off + s.len) := by
  have hc := h.cp
  rw [Array.Copy_ok, h.window_store] at hc
  exact hc.2

theorem written_length (h : Copied .halfOpen p data i p1 w s wr) (hd : data.WF) :
    wr.length = (p.page i).elems.length := by
  rw [← h.window_store]
  exact Array.Copy_length h.window_WF (h.slice_WF hd) h.cp

/-- The new `Datasize` of the frontier page stays within its capacity. -/
theorem Datasize_le (h : Copied .halfOpen p data i p1 w s wr) :
    (p.page i).Datasize + s.Len ≤ (p.page i).capacity := by
  have hu := h.unfilled
  have hb := h.window_bounds
  have hl := h.slice_len
  simp only [Page.capacity, Array.Len] at *
  by_cases hpos : (p.page i).Datasize > 0
  · have := hb.1 hpos; omega
  · have := hb.2 hpos; omega

end Copied

/-! ## The recursion -/

/-- A recursive call happens only after a successful copy, hence only under the
half-open reading, and receives the view `data.Slice(slice.Len(), data.Len()-1)`. -/
theorem step_recurse {c : Convention} {p p1 : Tensor} {data r : Array}
    (h : step c p data = .recurse p1 r) :
    ∃ i p0 w s wr, c = .halfOpen ∧ Copied .halfOpen p data i p0 w s wr ∧
      s.Len < data.Len ∧ p1 = p0.advance i wr s ∧
      Array.Slice .halfOpen data s.Len (data.Len - 1) = .ok r := by
  revert h
  refine step_cases c p data (fun o => o = .recurse p1 r → _) ?_ ?_ ?_ ?_ ?_ ?_ ?_ ?_
  · intro _ h; cases h
  · intro _ _ _ _ _ h; cases h
  · intro _ _ _ _ _ _ h; cases h
  · intro _ _ _ _ _ _ _ _ h; cases h
  · intro _ _ _ _ _ _ _ _ _ _ h; cases h
  · intro _ _ _ _ _ _ _ _ _ h; cases h
  · intro i p0 w s wr r0 hC hlt hr h
    have hc := hC.halfOpen
    subst hc
    simp only [Outcome.recurse.injEq] at h
    obtain ⟨rfl, rfl⟩ := h
    exact ⟨i, p0, w, s, wr, rfl, hC, hlt, rfl, hr⟩
  · intro _ _ _ _ _ _ _ h; cases h

/-- The array handed to the recursive call is strictly shorter than `data`. -/
theorem step_recurse_len {c : Convention} {p p1 : Tensor} {data r : Array}
    (h : step c p data = .recurse p1 r) : r.len < data.len := by
  obtain ⟨i, p0, w, s, wr, _, _, hlt, _, hr⟩ := step_recurse h
  rw [Array.Slice_halfOpen_ok] at hr
  obtain ⟨⟨h0, h1, _⟩, rfl⟩ := hr
  simp only [Array.Len] at *
  omega

theorem step_recurse_WF {c : Convention} {p p1 : Tensor} {data r : Array}
    (h : step c p data = .recurse p1 r) (hd : data.WF) : r.WF := by
  obtain ⟨i, p0, w, s, wr, _, _, _, _, hr⟩ := step_recurse h
  exact Array.Slice_WF hd hr

/-- With more activations allowed than `data` has elements, `addData` returns. -/
theorem addDataFuel_total (c : Convention) :
    ∀ (n : Nat) (p : Tensor) (data : Array), data.len < n →
      ∃ r, addDataFuel c n p data = some r := by
  intro n
  induction n with
  | zero => intro p data h; omega
  | succ n ih =>
    intro p data h
    unfold addDataFuel
    cases hs : step c p data with
    | ret p1 err => exact ⟨(p1, err), rfl⟩
    | recurse p1 r =>
      have := step_recurse_len hs
      exact ih p1 r (by omega)

theorem addData_total (c : Convention) (p : Tensor) (data : Array) :
    ∃ r, addData c p data = some r :=
  addDataFuel_total c (data.len + 1) p data (Nat.lt_succ_self _)

/-- A property of the tensor that every activation preserves holds when `addData`
returns. -/
theorem addDataFuel_invariant (c : Convention) (P : Tensor → Prop)
    (hstep : ∀ (p : Tensor) (data : Array), data.WF → P p → P (step c p data).tensor) :
    ∀ (n : Nat) (p : Tensor) (data : Array), data.WF → P p →
      ∀ r, addDataFuel c n p data = some r → P r.1 := by
  intro n
  induction n with
  | zero => intro p data _ _ r h; simp [addDataFuel] at h
  | succ n ih =>
    intro p data hd hp r h
    unfold addDataFuel at h
    have hst := hstep p data hd hp
    cases hs : step c p data with
    | ret p1 err =>
      rw [hs] at h hst
      simp only [Option.some.injEq] at h
      subst h
      exact hst
    | recurse p1 r1 =>
      rw [hs] at h hst
      exact ih p1 r1 (step_recurse_WF hs hd) hst r h

theorem addData_invariant (c : Convention) (P : Tensor → Prop)
    (hstep : ∀ (p : Tensor) (data : Array), data.WF → P p → P (step c p data).tensor)
    (p : Tensor) (data : Array) (hd : data.WF) (hp : P p) :
    ∃ p1 err, addData c p data = some (p1, err) ∧ P p1 := by
  obtain ⟨r, hr⟩ := addData_total c p data
  exact ⟨r.1, r.2, hr, addDataFuel_invariant c P hstep _ p data hd hp r hr⟩

/-! ## Page-wise reading of the invariants -/

theorem mem_pages_iff {p : Tensor} {pg : Page} :
    pg ∈ p.pages ↔ ∃ j, j < p.pages.length ∧ p.page j = pg := by
  constructor
  · intro h
    obtain ⟨j, hj, rfl⟩ := List.getElem_of_mem h
    exact ⟨j, hj, page_lt hj⟩
  · rintro ⟨j, hj, rfl⟩
    rw [page_lt hj]
    exact List.getElem_mem hj

theorem bounded_iff {p : Tensor} :
    p.Bounded ↔ ∀ j, j < p.pages.length →
      0 ≤ (p.page j).Datasize ∧ (p.page j).Datasize ≤ (p.page j).capacity := by
  unfold Bounded
  constructor
  · intro h j hj
    exact h _ (mem_pages_iff.mpr ⟨j, hj, rfl⟩)
  · intro h pg hpg
    obtain ⟨j, hj, rfl⟩ := mem_pages_iff.mp hpg
    exact h j hj

theorem pages_ext {p q : Tensor} (hlen : p.pages.length = q.pages.length)
    (h : ∀ j, j < p.pages.length → p.page j = q.page j) : p.pages = q.pages := by
  apply List.ext_getElem hlen
  intro j h1 h2
  have := h j h1
  rwa [page_lt h1, page_lt h2] at this

/-! ## What an activation leaves behind -/

/-- The tensor left by an activation is the tensor after the cache lookup, or that
tensor with the frontier page advanced after a successful copy. -/
theorem step_tensor (c : Convention) (p : Tensor) (data : Array) :
    (step c p data).tensor = p ∨
    (∃ i, p.firstUnfilledPage = some i ∧ (step c p data).tensor = (p.lookup i).1) ∨
    (∃ i p1 w s wr, c = .halfOpen ∧ Copied .halfOpen p data i p1 w s wr ∧
      (step c p data).tensor = p1.advance i wr s) := by
  refine step_cases c p data
    (fun o => o.tensor = p ∨ (∃ i, p.firstUnfilledPage = some i ∧ o.tensor = (p.lookup i).1) ∨
      (∃ i p1 w s wr, c = .halfOpen ∧ Copied .halfOpen p data i p1 w s wr ∧
        o.tensor = p1.advance i wr s)) ?_ ?_ ?_ ?_ ?_ ?_ ?_ ?_
  · intro _; left; rfl
  · intro i p1 e hf hl; right; left; exact ⟨i, hf, by rw [hl]; rfl⟩
  · intro i p1 e hf hl _; right; left; exact ⟨i, hf, by rw [hl]; rfl⟩
  · intro i p1 w e hf hl _ _; right; left; exact ⟨i, hf, by rw [hl]; rfl⟩
  · intro i p1 w s e hf hl _ _ _; right; left; exact ⟨i, hf, by rw [hl]; rfl⟩
  · intro i p1 w s wr e hC _ _
    have hc := hC.halfOpen
    subst hc
    right; right; exact ⟨i, p1, w, s, wr, rfl, hC, rfl⟩
  · intro i p1 w s wr r hC _ _
    have hc := hC.halfOpen
    subst hc
    right; right; exact ⟨i, p1, w, s, wr, rfl, hC, rfl⟩
  · intro i p1 w s wr hC _
    have hc := hC.halfOpen
    subst hc
    right; right; exact ⟨i, p1, w, s, wr, rfl, hC, rfl⟩

theorem Copied.frontier_page {p p1 : Tensor} {data w s : Array} {i : Nat} {wr : List Int}
    (h : Copied .halfOpen p data i p1 w s wr) (j : Nat) :
    (p1.advance i wr s).page j =
      if j = i then
        { p1.page i with elems := wr, Datasize := (p.page i).Datasize + s.Len }
      else p1.page j := by
  rw [Tensor.advance_page, h.p1_Datasize i]
  have := h.index_lt
  rw [← h.p1_length] at this
  by_cases hj : j = i
  · rw [if_pos ⟨hj, this⟩, if_pos hj]
  · rw [if_neg (fun hh => hj hh.1), if_neg hj]

theorem Copied.frontier_length {p p1 : Tensor} {data w s : Array} {i : Nat} {wr : List Int}
    (h : Copied .halfOpen p data i p1 w s wr) :
    (p1.advance i wr s).pages.length = p.pages.length := by
  rw [Tensor.advance_length, h.p1_length]

/-- Every activation keeps `0 ≤ Datasize ≤ capacity` on every page. -/
theorem step_Bounded (c : Convention) (p : Tensor) (data : Array) (hd : data.WF)
    (hb : p.Bounded) : (step c p data).tensor.Bounded := by
  rw [bounded_iff] at hb
  rcases step_tensor c p data with h | ⟨i, _, h⟩ | ⟨i, p1, w, s, wr, _, hC, h⟩
  · rw [h]; exact bounded_iff.mpr hb
  · rw [h, bounded_iff]
    intro j hj
    rw [lookup_length] at hj
    simp only [Page.capacity, lookup_Datasize, lookup_elems]
    exact hb j hj
  · rw [h, bounded_iff]
    intro j hj
    rw [hC.frontier_length] at hj
    rw [hC.frontier_page]
    by_cases hji : j = i
    · subst hji
      rw [if_pos rfl]
      have h1 := hC.Datasize_le
      have h2 := hC.written_length hd
      have h3 := hb j hj
      simp only [Page.capacity, Array.Len] at h1 h3 ⊢
      rw [h2]
      omega
    · rw [if_neg hji]
      simp only [Page.capacity, hC.p1_Datasize, hC.p1_elems]
      exact hb j hj

/-- C7: if every page satisfies `0 ≤ Datasize ≤ capacity` before `addData(data)`,
then `addData` returns, with `nil` or with an error, and every page still satisfies
`0 ≤ Datasize ≤ capacity` afterwards, for every data array and either reading of
`Slice`. -/
theorem addData_preserves_Bounded (c : Convention) (p : Tensor) (data : List Int)
    (h : p.Bounded) :
    ∃ p1 err, addData c p (Array.ofList data) = some (p1, err) ∧ p1.Bounded :=
  addData_invariant c Bounded (fun q d hd hq => step_Bounded c q d hd hq) p
    (Array.ofList data) (Array.ofList_WF data) h

theorem addData_preserves_Bounded_witness :
    scenarioA.Bounded ∧
      ∃ p1 err, addData .halfOpen scenarioA (Array.ofList [1, 2, 3, 4, 5, 6]) = some (p1, err) ∧
        p1.Bounded :=
  ⟨by decide, addData_preserves_Bounded .halfOpen scenarioA [1, 2, 3, 4, 5, 6] (by decide)⟩

/-- Every activation keeps the fill order free of gaps. -/
theorem step_WellOrdered (c : Convention) (p : Tensor) (data : Array)
    (hb : p.Bounded) (hw : p.WellOrdered) : (step c p data).tensor.WellOrdered := by
  rw [bounded_iff] at hb
  rcases step_tensor c p data with h | ⟨i, _, h⟩ | ⟨i, p1, w, s, wr, _, hC, h⟩
  · rw [h]; exact hw
  · rw [h]
    intro b hb1 a hab hpos
    rw [lookup_length] at hb1
    simp only [Page.capacity, lookup_Datasize, lookup_elems] at hpos ⊢
    exact hw b hb1 a hab hpos
  · rw [h]
    intro b hb1 a hab hpos
    rw [hC.frontier_length] at hb1
    rw [hC.frontier_page] at hpos ⊢
    have hu := hC.unfilled
    have hi := hC.index_lt
    by_cases hai : a = i
    · subst hai
      have hba : ¬ b = a := by omega
      rw [if_neg hba, hC.p1_Datasize] at hpos
      have := hw b hb1 a hab hpos
      omega
    · rw [if_neg hai]
      simp only [Page.capacity, hC.p1_Datasize, hC.p1_elems]
      by_cases hbi : b = i
      · subst hbi
        have h1 := (firstUnfilled_some hC.front).2.2 a hab
        have h2 := hb a (by omega)
        simp only [Page.capacity] at h1 h2
        have h1 : ¬ (p.page a).Datasize < ((p.page a).elems.length : Int) := h1
        omega
      · rw [if_neg hbi, hC.p1_Datasize] at hpos
        exact hw b hb1 a hab hpos

/-- C8: on a tensor whose pages satisfy `0 ≤ Datasize ≤ capacity` and whose fill
order has no gaps (every page before a page with `Datasize > 0` is completely
filled), `addData` returns, for every data array and with any result, a tensor that
again has both properties: filled pages, then at most one partially filled page,
then empty pages. -/
theorem addData_preserves_WellOrdered (c : Convention) (p : Tensor) (data : List Int)
    (hb : p.Bounded) (hw : p.WellOrdered) :
    ∃ p1 err, addData c p (Array.ofList data) = some (p1, err) ∧
      p1.Bounded ∧ p1.WellOrdered :=
  addData_invariant c (fun q => q.Bounded ∧ q.WellOrdered)
    (fun q d hd hq => ⟨step_Bounded c q d hd hq.1, step_WellOrdered c q d hq.1 hq.2⟩) p
    (Array.ofList data) (Array.ofList_WF data) ⟨hb, hw⟩

theorem addData_preserves_WellOrdered_witness :
    scenarioA.Bounded ∧ scenarioA.WellOrdered ∧
      ∃ p1 err, addData .halfOpen scenarioA (Array.ofList [1, 2, 3, 4, 5, 6]) = some (p1, err) ∧
        p1.Bounded ∧ p1.WellOrdered :=
  ⟨by decide, by decide,
    addData_preserves_WellOrdered .halfOpen scenarioA [1, 2, 3, 4, 5, 6] (by decide) (by decide)⟩

/-! ## No unfilled page -/

/-- C4: when `firstUnfilledPage` reports no unfilled page, `addData(data)` returns
`ErrFilled` for every data array and leaves the whole tensor state as it was: no
page's contents or `Datasize` changes, and the log of cache calls is unchanged (no
`cache.Get`, no `Swap`). -/
theorem addData_ErrFilled (c : Convention) (p : Tensor) (data : List Int)
    (h : p.firstUnfilledPage = none) :
    addData c p (Array.ofList data) = some (p, some .ErrFilled) := by
  unfold addData addDataFuel step
  rw [h]

theorem addData_ErrFilled_witness :
    filledTensor.firstUnfilledPage = none ∧
      addData .halfOpen filledTensor (Array.ofList [7, 8]) =
        some (filledTensor, some .ErrFilled) :=
  ⟨by decide, addData_ErrFilled .halfOpen filledTensor [7, 8] (by decide)⟩

/-! ## Creating a stream -/

/-- C5: `Tensor.Stream(mutable)` returns `ErrSize` exactly when
`len(mutable) != p.Dims()`; in that case no channel has been made, no actor has been
started and the tensor is as it was.  When the lengths agree the error is `nil` and
the handle is bound to the tensor `p`. -/
theorem Stream_ErrSize_iff (p : Tensor) (mutable : List Bool) :
    ((p.Stream mutable).err = some .ErrSize ↔ mutable.length ≠ p.Dims) ∧
    (mutable.length ≠ p.Dims →
      (p.Stream mutable).channels = [] ∧ (p.Stream mutable).actors = 0 ∧
        (p.Stream mutable).tensor = p) ∧
    (mutable.length = p.Dims →
      (p.Stream mutable).err = none ∧ (p.Stream mutable).stream.Tensor = some p) := by
  unfold Tensor.Stream
  by_cases h : mutable.length ≠ p.Dims
  · simp [h]
  · simp [h]

theorem Stream_ErrSize_iff_witness :
    ((scenarioA.Stream [true, false]).err = some .ErrSize ↔
        [true, false].length ≠ scenarioA.Dims) ∧
    ((scenarioA.Stream [true, false]).channels = [] ∧
        (scenarioA.Stream [true, false]).actors = 0 ∧
        (scenarioA.Stream [true, false]).tensor = scenarioA) ∧
    ((scenarioA.Stream [true]).err = none ∧
        (scenarioA.Stream [true]).stream.Tensor = some scenarioA) :=
  ⟨(Stream_ErrSize_iff scenarioA [true, false]).1,
    (Stream_ErrSize_iff scenarioA [true, false]).2.1 (by decide),
    (Stream_ErrSize_iff scenarioA [true]).2.2 (by decide)⟩

/-! ## `Datasize` within one activation -/

theorem map_pages_eq {α : Type} {p q : Tensor} (f : Page → α)
    (hlen : p.pages.length = q.pages.length)
    (h : ∀ j, j < p.pages.length → f (p.page j) = f (q.page j)) :
    p.pages.map f = q.pages.map f := by
  apply List.ext_getElem (by simp [hlen])
  intro j h1 h2
  simp only [List.length_map] at h1 h2
  simp only [List.getElem_map]
  have := h j h1
  rwa [page_lt h1, page_lt h2] at this

theorem lookup_Datasizes (p : Tensor) (i : Nat) : (p.lookup i).1.Datasizes = p.Datasizes :=
  map_pages_eq _ (lookup_length p i) (fun j _ => lookup_Datasize p i j)

theorem lookup_content (p : Tensor) (i : Nat) : (p.lookup i).1.content = p.content :=
  map_pages_eq _ (lookup_length p i) (fun j _ => by
    rw [lookup_Datasize, lookup_elems])

/-- C10: in one activation of `addData` on the page at position `i` (the frontier
page: `step` is `fill` on the first unfilled page), if the cache lookup (`cache.Get`,
`Swap`), the `Slice` that takes the window, the `Slice` of the data or `Copy` returns
an error, that same error is returned and every page's `Datasize` is what it was
when the activation began; if `Copy` succeeds, the `Datasize` of page `i` has grown
by exactly the length of the slice that was copied and no other `Datasize` has
changed. -/
theorem fill_Datasize (c : Convention) (p : Tensor) (i : Nat) (data : Array)
    (hi : i < p.pages.length) :
    (p.firstUnfilledPage = some i → step c p data = fill c p i data) ∧
    (∀ p1 e, p.lookup i = (p1, .err e) →
      fill c p i data = .ret p1 (some e) ∧ p1.Datasizes = p.Datasizes) ∧
    (∀ p1 a e, p.lookup i = (p1, .ok a) → window c (p1.page i) a = .err e →
      fill c p i data = .ret p1 (some e) ∧ p1.Datasizes = p.Datasizes) ∧
    (∀ p1 a w e, p.lookup i = (p1, .ok a) → window c (p1.page i) a = .ok w →
      Array.Slice c data 0 (fit data w) = .err e →
      fill c p i data = .ret p1 (some e) ∧ p1.Datasizes = p.Datasizes) ∧
    (∀ p1 a w s e, p.lookup i = (p1, .ok a) → window c (p1.page i) a = .ok w →
      Array.Slice c data 0 (fit data w) = .ok s → w.Copy s = .err e →
      fill c p i data = .ret p1 (some e) ∧ p1.Datasizes = p.Datasizes) ∧
    (∀ p1 a w s wr, p.lookup i = (p1, .ok a) → window c (p1.page i) a = .ok w →
      Array.Slice c data 0 (fit data w) = .ok s → w.Copy s = .ok wr →
      ((fill c p i data).tensor.page i).Datasize = (p.page i).Datasize + s.Len ∧
        ∀ j, j ≠ i → ((fill c p i data).tensor.page j).Datasize = (p.page j).Datasize) := by
  have hD : ∀ p1 r, p.lookup i = (p1, r) → p1.Datasizes = p.Datasizes := by
    intro p1 r hl
    have : p1 = (p.lookup i).1 := by rw [hl]
    rw [this]; exact lookup_Datasizes p i
  refine ⟨?_, ?_, ?_, ?_, ?_, ?_⟩
  · intro hf
    unfold step
    rw [hf]
  · intro p1 e hl
    refine ⟨?_, hD _ _ hl⟩
    unfold fill; rw [hl]
  · intro p1 a e hl hw
    refine ⟨?_, hD _ _ hl⟩
    unfold fill; rw [hl]; simp only; rw [hw]
  · intro p1 a w e hl hw hs
    refine ⟨?_, hD _ _ hl⟩
    unfold fill; rw [hl]; simp only; rw [hw]; simp only; rw [hs]
  · intro p1 a w s e hl hw hs hc
    refine ⟨?_, hD _ _ hl⟩
    unfold fill; rw [hl]; simp only; rw [hw]; simp only; rw [hs]; simp only; rw [hc]
  · intro p1 a w s wr hl hw hs hc
    have hp1 : p1 = (p.lookup i).1 := by rw [hl]
    have ht : (fill c p i data).tensor = p1.advance i wr s := by
      unfold fill; rw [hl]; simp only; rw [hw]; simp only; rw [hs]; simp only; rw [hc]
      simp only
      split
      · split <;> rfl
      · rfl
    have hlen : i < p1.pages.length := by rw [hp1, lookup_length]; exact hi
    rw [ht]
    constructor
    · rw [advance_page, if_pos ⟨rfl, hlen⟩]
      simp only
      rw [hp1, lookup_Datasize]
    · intro j hj
      rw [advance_page, if_neg (fun h => hj h.1), hp1, lookup_Datasize]

theorem fill_Datasize_witness :
    0 < halfPage.pages.length ∧
    (fill .halfOpen unloadable 0 (Array.ofList [1]) =
        .ret (unloadable.lookup 0).1 (some (.ErrSwap 7)) ∧
      (unloadable.lookup 0).1.Datasizes = unloadable.Datasizes) ∧
    (fill .halfOpen corrupted 0 (Array.ofList [1]) =
        .ret (corrupted.lookup 0).1 (some .ErrBounds) ∧
      (corrupted.lookup 0).1.Datasizes = corrupted.Datasizes) ∧
    (fill .inclusive scenarioA 0 (Array.ofList [1]) =
        .ret (scenarioA.lookup 0).1 (some .ErrBounds) ∧
      (scenarioA.lookup 0).1.Datasizes = scenarioA.Datasizes) ∧
    (fill .inclusive scenarioA 0 (Array.ofList [1, 2, 3, 4, 5, 6]) =
        .ret (scenarioA.lookup 0).1 (some .ErrLength) ∧
      (scenarioA.lookup 0).1.Datasizes = scenarioA.Datasizes) ∧
    ((fill .halfOpen halfPage 0 (Array.ofList [9])).tensor.page 0).Datasize =
      (halfPage.page 0).Datasize + (Array.mk [9] 0 1).Len :=
  ⟨by decide,
    (fill_Datasize .halfOpen unloadable 0 (Array.ofList [1]) (by decide)).2.1
      (unloadable.lookup 0).1 (.ErrSwap 7) (by decide),
    (fill_Datasize .halfOpen corrupted 0 (Array.ofList [1]) (by decide)).2.2.1
      (corrupted.lookup 0).1 (Array.ofList [1, 2]) .ErrBounds (by decide) (by decide),
    (fill_Datasize .inclusive scenarioA 0 (Array.ofList [1]) (by decide)).2.2.2.1
      (scenarioA.lookup 0).1 (Array.ofList [0, 0, 0, 0]) (Array.ofList [0, 0, 0, 0]) .ErrBounds
      (by decide) (by decide) (by decide),
    (fill_Datasize .inclusive scenarioA 0 (Array.ofList [1, 2, 3, 4, 5, 6]) (by decide)).2.2.2.2.1
      (scenarioA.lookup 0).1 (Array.ofList [0, 0, 0, 0]) (Array.ofList [0, 0, 0, 0])
      (Array.mk [1, 2, 3, 4, 5, 6] 0 5) .ErrLength (by decide) (by decide) (by decide) (by decide),
    ((fill_Datasize .halfOpen halfPage 0 (Array.ofList [9]) (by decide)).2.2.2.2.2
      (halfPage.lookup 0).1 (Array.ofList [1, 2, 0, 0]) (Array.mk [1, 2, 0, 0] 1 2)
      (Array.mk [9] 0 1) [1, 9, 0, 0] (by decide) (by decide) (by decide) (by decide)).1⟩

/-! ## Empty data -/

theorem lookup_err {p p1 : Tensor} {i : Nat} {e : Error} (h : p.lookup i = (p1, .err e)) :
    (p.page i).resident = false ∧ (p.page i).swap ≠ .loads := by
  unfold lookup at h
  simp only at h
  split at h
  · simp at h
  · rename_i hres
    refine ⟨by simpa using hres, ?_⟩
    split at h
    · rename_i hsw; rw [hsw]; simp
    · rename_i hsw; rw [hsw]; simp
    · simp at h

/-- Under the half-open reading the window of an unfilled page can be taken. -/
theorem window_halfOpen_ne_err (pg : Page) (xs : List Int) (e : Error)
    (hlt : pg.Datasize < (xs.length : Int)) :
    window .halfOpen pg (Array.ofList xs) ≠ .err e := by
  unfold window
  split
  · unfold Array.Slice
    simp only [Array.Len, Array.ofList]
    rw [if_pos (by omega)]
    simp
  · simp

/-- C6 (amended): `addData` applied to an empty data array returns and leaves the
contents and the `Datasize` of every page unchanged.  It returns `ErrFilled` when
every page is filled, and under the half-open reading of `Slice` it returns `nil`
when there is an unfilled page whose array the cache delivers (the frontier page is
resident, or `Swap` loads it). -/
theorem addData_empty (c : Convention) (p : Tensor) :
    ∃ p1 err, addData c p (Array.ofList []) = some (p1, err) ∧ p1.content = p.content ∧
      (p.firstUnfilledPage = none → err = some .ErrFilled) ∧
      (∀ i, p.firstUnfilledPage = some i →
        ((p.page i).resident = true ∨ (p.page i).swap = .loads) → c = .halfOpen →
        err = none) := by
  have key : ∃ p1 err, step c p (Array.ofList []) = .ret p1 err ∧ p1.content = p.content ∧
      (p.firstUnfilledPage = none → err = some .ErrFilled) ∧
      (∀ i, p.firstUnfilledPage = some i →
        ((p.page i).resident = true ∨ (p.page i).swap = .loads) → c = .halfOpen →
        err = none) := by
    have hcont : ∀ i p1 r, p.lookup i = (p1, r) → p1.content = p.content := by
      intro i p1 r hl
      have : p1 = (p.lookup i).1 := by rw [hl]
      rw [this]; exact lookup_content p i
    refine step_cases c p (Array.ofList []) (fun o => ∃ p1 err, o = .ret p1 err ∧
      p1.content = p.content ∧ (p.firstUnfilledPage = none → err = some .ErrFilled) ∧
      (∀ i, p.firstUnfilledPage = some i →
        ((p.page i).resident = true ∨ (p.page i).swap = .loads) → c = .halfOpen →
        err = none)) ?_ ?_ ?_ ?_ ?_ ?_ ?_ ?_
    · intro hf
      refine ⟨p, _, rfl, rfl, fun _ => rfl, ?_⟩
      intro i hi; rw [hf] at hi; cases hi
    · intro i p1 e hf hl
      refine ⟨p1, _, rfl, hcont i p1 _ hl, ?_, ?_⟩
      · intro h; rw [hf] at h; cases h
      intro k hk hres _
      rw [hf] at hk
      cases hk
      have := lookup_err hl
      rcases hres with h1 | h1
      · rw [this.1] at h1; cases h1
      · exact absurd h1 this.2
    · intro i p1 e hf hl hw
      refine ⟨p1, _, rfl, hcont i p1 _ hl, ?_, ?_⟩
      · intro h; rw [hf] at h; cases h
      intro k hk _ hc
      subst hc
      exfalso
      have hu := (firstUnfilled_some hf).2.1
      have hp1 : p1 = (p.lookup i).1 := by rw [hl]
      refine window_halfOpen_ne_err (p1.page i) (p.page i).elems e ?_ hw
      rw [hp1, lookup_Datasize]
      exact hu
    · intro i p1 w e hf hl hw hs
      refine ⟨p1, _, rfl, hcont i p1 _ hl, ?_, ?_⟩
      · intro h; rw [hf] at h; cases h
      intro k hk _ hc
      subst hc
      exfalso
      have hfit : fit (Array.ofList []) w = 0 := by
        simp only [fit, Array.Len, Array.ofList, List.length_nil]
        split <;> omega
      rw [hfit] at hs
      simp [Array.Slice, Array.Len] at hs
    · intro i p1 w s e hf hl hw hs hcp
      refine ⟨p1, _, rfl, hcont i p1 _ hl, ?_, ?_⟩
      · intro h; rw [hf] at h; cases h
      intro k hk _ hc
      subst hc
      exfalso
      have hlt := (Array.Copy_err hcp).2
      have hfit : fit (Array.ofList []) w = 0 := by
        simp only [fit, Array.Len, Array.ofList, List.length_nil]
        split <;> omega
      rw [hfit, Array.Slice_halfOpen_ok] at hs
      obtain ⟨_, rfl⟩ := hs
      simp at hlt
    · intro i p1 w s wr e hC hlt _
      exfalso
      simp only [Array.Len, Array.ofList, List.length_nil] at hlt
      omega
    · intro i p1 w s wr r hC hlt _
      exfalso
      simp only [Array.Len, Array.ofList, List.length_nil] at hlt
      omega
    · intro i p1 w s wr hC _
      have hc := hC.halfOpen
      subst hc
      refine ⟨_, _, rfl, ?_, ?_, fun _ _ _ _ => rfl⟩
      rotate_left
      · intro h; rw [hC.front] at h; cases h
      have hlen : s.len = 0 := by
        rw [hC.slice_len]; simp [Array.ofList]
      apply map_pages_eq _ hC.frontier_length
      intro j _
      rw [hC.frontier_page]
      by_cases hj : j = i
      · subst hj
        rw [if_pos rfl]
        simp only [Array.Len, hlen, Int.ofNat_zero, add_zero, Prod.mk.injEq, true_and]
        rw [hC.written_eq, hlen]
        simp [Array.elems, hlen]
      · rw [if_neg hj, hC.p1_Datasize, hC.p1_elems]
  obtain ⟨p1, err, hs, h1, h2, h3⟩ := key
  refine ⟨p1, err, ?_, h1, h2, h3⟩
  unfold addData addDataFuel
  rw [hs]

/-- C6 as stated fails: on a tensor whose pages are all filled `addData` of the empty
array returns `ErrFilled` under either reading of `Slice`, and on a tensor whose
frontier page is not resident and cannot be loaded it returns the error of `Swap`. -/
theorem empty_data_not_nil :
    addData .halfOpen filledTensor (Array.ofList []) =
      some (filledTensor, some .ErrFilled) ∧
    addData .inclusive filledTensor (Array.ofList []) =
      some (filledTensor, some .ErrFilled) ∧
    addData .halfOpen unloadable (Array.ofList []) =
      some ((unloadable.lookup 0).1, some (.ErrSwap 7)) := by
  decide

theorem addData_empty_witness :
    ∃ p1, addData .halfOpen evicted (Array.ofList []) = some (p1, none) ∧
      p1.content = evicted.content := by
  obtain ⟨p1, err, h, hc, _, h3⟩ := addData_empty .halfOpen evicted
  have he := h3 0 (by decide) (Or.inr (by decide)) rfl
  subst he
  exact ⟨p1, h, hc⟩

/-! ## The fill algorithm on the scenarios of the specification -/

/-- C1 (failing input): on Scenario A, 2 empty pages of capacity 4 and data
`[1,2,3,4,5,6]`, the half-open reading fills page 0 with `[1,2,3,4]` and then writes
only `5` into page 1 (`Datasize` 1): the recursive call receives
`data.Slice(4, 5)`, which is `[5]`.  Under the inclusive reading `data.Slice(0, 4)`
has 5 elements, `Copy` into the 4-element page fails and nothing is written. -/
theorem addData_scenarioA :
    addData .halfOpen scenarioA (Array.ofList [1, 2, 3, 4, 5, 6]) =
      some (⟨1, [residentPage 0 4 [1, 2, 3, 4], residentPage 1 1 [5, 0, 0, 0]],
        [.get 0, .get 1]⟩, none) ∧
    addData .inclusive scenarioA (Array.ofList [1, 2, 3, 4, 5, 6]) =
      some (⟨1, [residentPage 0 0 [0, 0, 0, 0], residentPage 1 0 [0, 0, 0, 0]],
        [.get 0]⟩, some .ErrLength) := by
  decide

/-- C2 (failing input): on 2 empty pages of capacity 4, `addData([1,2])` followed by
`addData([3,4,5,6])` leaves page 0 as `[1,3,4,0]` with `Datasize` 4, whereas
`addData([1,2,3,4,5,6])` leaves it as `[1,2,3,4]` (half-open reading): the window of
the second call starts at `Datasize - 1` and overwrites the element `2`. -/
theorem addData_split_differs :
    ((addData .halfOpen scenarioA (Array.ofList [1, 2])).bind
        (fun r => addData .halfOpen r.1 (Array.ofList [3, 4, 5, 6]))).map (·.1.content) =
      some [(4, [1, 3, 4, 0]), (1, [5, 0, 0, 0])] ∧
    (addData .halfOpen scenarioA (Array.ofList [1, 2, 3, 4, 5, 6])).map (·.1.content) =
      some [(4, [1, 2, 3, 4]), (1, [5, 0, 0, 0])] := by
  decide

/-- C3 (failing input): on 2 empty pages of capacity 2, data `[1,2,3,4,5]` is one
element longer than the remaining capacity, yet `addData` returns `nil` (half-open
reading; the element `5` is dropped by `data.Slice(2, 4)`); data `[1,2,3,4]` equals
the remaining capacity and leaves page 1 with `Datasize` 1.  Under the inclusive
reading the call returns the error of `Copy` and fills nothing. -/
theorem addData_overflow :
    addData .halfOpen smallTensor (Array.ofList [1, 2, 3, 4, 5]) =
      some (⟨1, [residentPage 0 2 [1, 2], residentPage 1 2 [3, 4]], [.get 0, .get 1]⟩,
        none) ∧
    addData .halfOpen smallTensor (Array.ofList [1, 2, 3, 4]) =
      some (⟨1, [residentPage 0 2 [1, 2], residentPage 1 1 [3, 0]], [.get 0, .get 1]⟩,
        none) ∧
    addData .inclusive smallTensor (Array.ofList [1, 2, 3, 4, 5]) =
      some (⟨1, [residentPage 0 0 [0, 0], residentPage 1 0 [0, 0]], [.get 0]⟩,
        some .ErrLength) := by
  decide

/-- C9 (failing input): on a page `[1,2,0,0]` with `Datasize` 2 the writable window
starts at offset 1, not 2, under either reading of `Slice`; `addData([9])` then
overwrites the element `2` (half-open reading) and leaves `[1,9,0,0]` with
`Datasize` 3. -/
theorem addData_overwrites :
    window .halfOpen (halfPage.page 0) (Array.ofList [1, 2, 0, 0]) =
      .ok ⟨[1, 2, 0, 0], 1, 2⟩ ∧
    window .inclusive (halfPage.page 0) (Array.ofList [1, 2, 0, 0]) =
      .ok ⟨[1, 2, 0, 0], 1, 3⟩ ∧
    addData .halfOpen halfPage (Array.ofList [9]) =
      some (⟨1, [residentPage 0 3 [1, 9, 0, 0]], [.get 0]⟩, none) ∧
    addData .inclusive halfPage (Array.ofList [9]) =
      some (⟨1, [residentPage 0 2 [1, 2, 0, 0]], [.get 0]⟩, some .ErrBounds) := by
  decide

/-! ## Cache misses -/

theorem lookup_err_cases {p p1 : Tensor} {i : Nat} {e : Error}
    (h : p.lookup i = (p1, .err e)) :
    (p.page i).resident = false ∧
      ((p.page i).swap = .fails e ∨ ((p.page i).swap = .silent ∧ e = .ErrCache)) := by
  unfold lookup at h
  simp only at h
  split at h
  · simp at h
  · rename_i hres
    refine ⟨by simpa using hres, ?_⟩
    split at h
    · rename_i e1 hsw
      simp only [Prod.mk.injEq, Res.err.injEq] at h
      left; rw [hsw, h.2]
    · rename_i hsw
      simp only [Prod.mk.injEq, Res.err.injEq] at h
      right; exact ⟨hsw, h.2.symm⟩
    · simp at h

/-- C11: when `cache.Get(page.Id)` misses for the frontier page, `addData` calls
`Swap(page.Id)` once.  If `Swap` returns an error `e`, `addData` returns exactly `e`
after the calls `Get`, `Swap`; if `Swap` returns `nil` and the second `Get` misses,
`addData` returns `ErrCache` after the calls `Get`, `Swap`, `Get`.  In both cases
the pages are as they were.  An activation returns `ErrCache` only after a miss, and
then either by the second miss or as the error that `Swap` itself returned. -/
theorem addData_cache_miss (c : Convention) (p : Tensor) (data : List Int) (i : Nat)
    (hf : p.firstUnfilledPage = some i) :
    (∀ e, (p.page i).resident = false → (p.page i).swap = .fails e →
      addData c p (Array.ofList data) =
        some (⟨p.dims, p.pages,
          p.trace ++ [.get (p.page i).Id, .swap (p.page i).Id]⟩, some e)) ∧
    ((p.page i).resident = false → (p.page i).swap = .silent →
      addData c p (Array.ofList data) =
        some (⟨p.dims, p.pages,
          p.trace ++ [.get (p.page i).Id, .swap (p.page i).Id, .get (p.page i).Id]⟩,
          some .ErrCache)) ∧
    (∀ p1, step c p (Array.ofList data) = .ret p1 (some .ErrCache) →
      (p.page i).resident = false ∧
        ((p.page i).swap = .silent ∨ (p.page i).swap = .fails .ErrCache)) := by
  refine ⟨?_, ?_, ?_⟩
  · intro e hres hsw
    unfold addData addDataFuel step
    rw [hf]
    simp only
    unfold fill lookup
    simp [hres, hsw, log]
  · intro hres hsw
    unfold addData addDataFuel step
    rw [hf]
    simp only
    unfold fill lookup
    simp [hres, hsw, log]
  · refine step_cases c p (Array.ofList data)
      (fun o => ∀ p1, o = .ret p1 (some .ErrCache) →
        (p.page i).resident = false ∧
          ((p.page i).swap = .silent ∨ (p.page i).swap = .fails .ErrCache))
      ?_ ?_ ?_ ?_ ?_ ?_ ?_ ?_
    · intro _ p1 h
      simp at h
    · intro k p0 e hk hl p1 h
      rw [hf] at hk
      cases hk
      simp only [Outcome.ret.injEq, Option.some.injEq] at h
      obtain ⟨_, rfl⟩ := h
      obtain ⟨h1, h2⟩ := lookup_err_cases hl
      exact ⟨h1, h2.symm.imp (fun hh => hh.1) id⟩
    · intro k p0 e _ _ hw p1 h
      simp only [Outcome.ret.injEq, Option.some.injEq] at h
      obtain ⟨_, rfl⟩ := h
      unfold window at hw
      split at hw
      · cases Array.Slice_err hw
      · cases hw
    · intro k p0 w e _ _ _ hs p1 h
      simp only [Outcome.ret.injEq, Option.some.injEq] at h
      obtain ⟨_, rfl⟩ := h
      cases Array.Slice_err hs
    · intro k p0 w s e _ _ _ _ hcp p1 h
      simp only [Outcome.ret.injEq, Option.some.injEq] at h
      obtain ⟨_, rfl⟩ := h
      cases (Array.Copy_err hcp).1
    · intro k p0 w s wr e _ _ hr p1 h
      simp only [Outcome.ret.injEq, Option.some.injEq] at h
      obtain ⟨_, rfl⟩ := h
      cases Array.Slice_err hr
    · intro k p0 w s wr r _ _ _ p1 h
      cases h
    · intro k p0 w s wr _ _ p1 h
      simp at h

theorem addData_cache_miss_witness :
    unloadable.firstUnfilledPage = some 0 ∧
    addData .halfOpen unloadable (Array.ofList [1]) =
      some (⟨unloadable.dims, unloadable.pages,
        unloadable.trace ++ [.get (unloadable.page 0).Id, .swap (unloadable.page 0).Id]⟩,
        some (.ErrSwap 7)) ∧
    addData .halfOpen inconsistent (Array.ofList [1]) =
      some (⟨inconsistent.dims, inconsistent.pages,
        inconsistent.trace ++ [.get (inconsistent.page 0).Id,
          .swap (inconsistent.page 0).Id, .get (inconsistent.page 0).Id]⟩,
        some .ErrCache) ∧
    ((inconsistent.page 0).resident = false ∧
      ((inconsistent.page 0).swap = .silent ∨
        (inconsistent.page 0).swap = .fails .ErrCache)) :=
  ⟨by decide,
    (addData_cache_miss .halfOpen unloadable [1] 0 (by decide)).1 (.ErrSwap 7)
      (by decide) (by decide),
    (addData_cache_miss .halfOpen inconsistent [1] 0 (by decide)).2.1
      (by decide) (by decide),
    (addData_cache_miss .halfOpen inconsistent [1] 0 (by decide)).2.2
      (inconsistent.lookup 0).1 (by decide)⟩

/-! ## The actor -/

/-- C13 (failing input): the actor of lines 21-30 runs its `select` once.  Offered
the data units `[1,2]` and `[3,4]` on 2 empty pages of capacity 2, it passes only
`[1,2]` to `addData` and is no longer waiting afterwards, whereas `addData` applied
to both units in order also fills page 1; a finalize signal offered after the first
unit is not received and the channels stay open. -/
theorem actor_single_shot :
    (Actor.run .halfOpen (Actor.start smallTensor)
        [.data (Array.ofList [1, 2]), .data (Array.ofList [3, 4])]).tensor.content =
      [(2, [1, 2]), (0, [0, 0])] ∧
    (Actor.written .halfOpen (Actor.written .halfOpen smallTensor (Array.ofList [1, 2]))
        (Array.ofList [3, 4])).content =
      [(2, [1, 2]), (2, [3, 4])] ∧
    (Actor.run .halfOpen (Actor.start smallTensor) [.data (Array.ofList [1, 2])]).waiting =
      false ∧
    (Actor.run .halfOpen (Actor.start smallTensor)
        [.data (Array.ofList [1, 2]), .finalize]).dataOpen = true ∧
    (Actor.run .halfOpen (Actor.start smallTensor)
        [.data (Array.ofList [1, 2]), .finalize]).finalizeOpen = true := by
  decide

theorem Actor.run_stopped (c : Convention) (a : Actor) (ss : List Signal)
    (h : a.waiting = false) : a.run c ss = a := by
  induction ss with
  | nil => rfl
  | cons s rest ih =>
    have hs : a.receive c s = a := by
      unfold Actor.receive
      rw [h]
      rfl
    unfold Actor.run at ih ⊢
    rw [List.foldl_cons, hs]
    exact ih

/-- C14: once the actor has been offered the finalize signal it is no longer waiting
in its `select`, and whatever signals follow (data units still in flight or sent
afterwards), `addData` is not invoked: the tensor stays as it was when the finalize
signal was offered. -/
theorem no_write_after_finalize (c : Convention) (a : Actor) (ss : List Signal) :
    (a.receive c .finalize).waiting = false ∧
      ((a.receive c .finalize).run c ss).tensor = a.tensor := by
  have hw : (a.receive c .finalize).waiting = false := by
    unfold Actor.receive
    by_cases h : a.waiting = true
    · rw [if_pos h]
    · rw [if_neg h]
      simpa using h
  have ht : (a.receive c .finalize).tensor = a.tensor := by
    unfold Actor.receive
    by_cases h : a.waiting = true
    · rw [if_pos h]
    · rw [if_neg h]
  refine ⟨hw, ?_⟩
  rw [Actor.run_stopped c _ ss hw, ht]

/-! ## Splitting the data -/

/-- C15 (failing input): on Scenario A with data `[1,2,3,4,5,6]` and the half-open
reading, the slice copied is `data.Slice(0, 4)`, the first 4 elements, but the array
passed to the recursive call is `data.Slice(4, 5)`, the single element `5`: slice and
remaining together are `[1,2,3,4,5]`, not the data.  Under the inclusive reading
`data.Slice(0, 4)` is `[1,2,3,4,5]`, one element more than `written = 4`. -/
theorem step_splits_scenarioA :
    step .halfOpen scenarioA (Array.ofList [1, 2, 3, 4, 5, 6]) =
      .recurse ⟨1, [residentPage 0 4 [1, 2, 3, 4], residentPage 1 0 [0, 0, 0, 0]], [.get 0]⟩
        ⟨[1, 2, 3, 4, 5, 6], 4, 1⟩ ∧
    (Array.Slice .halfOpen (Array.ofList [1, 2, 3, 4, 5, 6]) 0 4 =
        .ok ⟨[1, 2, 3, 4, 5, 6], 0, 4⟩ ∧
      (Array.mk [1, 2, 3, 4, 5, 6] 0 4).elems = [1, 2, 3, 4]) ∧
    (Array.Slice .halfOpen (Array.ofList [1, 2, 3, 4, 5, 6]) 4 5 =
        .ok ⟨[1, 2, 3, 4, 5, 6], 4, 1⟩ ∧
      (Array.mk [1, 2, 3, 4, 5, 6] 4 1).elems = [5]) ∧
    (Array.Slice .inclusive (Array.ofList [1, 2, 3, 4, 5, 6]) 0 4 =
        .ok ⟨[1, 2, 3, 4, 5, 6], 0, 5⟩ ∧
      (Array.mk [1, 2, 3, 4, 5, 6] 0 5).elems = [1, 2, 3, 4, 5]) := by
  decide

/-! ## Filled pages -/

/-- Every activation leaves the pages that were filled at the start of `addData` as
they were. -/
theorem step_frozen (c : Convention) (p0 p : Tensor) (data : Array)
    (h : p.pages.length = p0.pages.length ∧ ∀ j, j < p0.pages.length →
      (p0.page j).Datasize = (p0.page j).capacity →
      (p.page j).Datasize = (p0.page j).Datasize ∧ (p.page j).elems = (p0.page j).elems) :
    (step c p data).tensor.pages.length = p0.pages.length ∧ ∀ j, j < p0.pages.length →
      (p0.page j).Datasize = (p0.page j).capacity →
      ((step c p data).tensor.page j).Datasize = (p0.page j).Datasize ∧
        ((step c p data).tensor.page j).elems = (p0.page j).elems := by
  obtain ⟨hlen, hpg⟩ := h
  rcases step_tensor c p data with h | ⟨i, _, h⟩ | ⟨i, p1, w, s, wr, _, hC, h⟩
  · rw [h]; exact ⟨hlen, hpg⟩
  · rw [h, lookup_length]
    refine ⟨hlen, ?_⟩
    intro j hj hfull
    rw [lookup_Datasize, lookup_elems]
    exact hpg j hj hfull
  · rw [h, hC.frontier_length]
    refine ⟨hlen, ?_⟩
    intro j hj hfull
    rw [hC.frontier_page]
    have hu := hC.unfilled
    by_cases hji : j = i
    · subst hji
      exfalso
      obtain ⟨h1, h2⟩ := hpg j hj hfull
      simp only [Page.capacity] at hu hfull
      rw [h1, h2] at hu
      omega
    · rw [if_neg hji, hC.p1_Datasize, hC.p1_elems]
      exact hpg j hj hfull

/-- C18: `addData(data)` returns, and whatever it returns, every page that was
completely filled (`Datasize == capacity`) before the call has the same contents and
the same `Datasize` afterwards.  This holds for every tensor state, in particular
for those with `0 ≤ Datasize ≤ capacity` on every page. -/
theorem addData_filled_frozen (c : Convention) (p : Tensor) (data : List Int) :
    ∃ p1 err, addData c p (Array.ofList data) = some (p1, err) ∧
      p1.pages.length = p.pages.length ∧
      ∀ j, j < p.pages.length → (p.page j).Datasize = (p.page j).capacity →
        (p1.page j).Datasize = (p.page j).Datasize ∧ (p1.page j).elems = (p.page j).elems :=
  addData_invariant c
    (fun q => q.pages.length = p.pages.length ∧ ∀ j, j < p.pages.length →
      (p.page j).Datasize = (p.page j).capacity →
      (q.page j).Datasize = (p.page j).Datasize ∧ (q.page j).elems = (p.page j).elems)
    (fun q d _ hq => step_frozen c p q d hq) p (Array.ofList data) (Array.ofList_WF data)
    ⟨rfl, fun _ _ _ => ⟨rfl, rfl⟩⟩

theorem addData_filled_frozen_witness :
    ∃ p1 err, addData .halfOpen
        ⟨1, [residentPage 0 2 [1, 2], residentPage 1 0 [0, 0]], []⟩ (Array.ofList [7, 8, 9]) =
          some (p1, err) ∧
      (p1.page 0).Datasize = 2 ∧ (p1.page 0).elems = [1, 2] := by
  obtain ⟨p1, err, h, _, hj⟩ := addData_filled_frozen .halfOpen
    ⟨1, [residentPage 0 2 [1, 2], residentPage 1 0 [0, 0]], []⟩ [7, 8, 9]
  exact ⟨p1, err, h, hj 0 (by decide) (by decide)⟩

/-! ## `Datasize` accounting -/

theorem sum_set_int (l : List Int) (i : Nat) (x : Int) (h : i < l.length) :
    (l.set i x).sum = l.sum - l[i] + x := by
  induction l generalizing i with
  | nil => simp at h
  | cons a rest ih =>
    cases i with
    | zero => simp; omega
    | succ k =>
      simp only [List.length_cons, Nat.succ_lt_succ_iff] at h
      simp only [List.set_cons_succ, List.sum_cons, List.getElem_cons_succ, ih k h]
      omega

theorem Datasizes_length (p : Tensor) : p.Datasizes.length = p.pages.length := by
  simp [Datasizes]

theorem Datasizes_getElem (p : Tensor) (i : Nat) (h : i < p.Datasizes.length) :
    p.Datasizes[i] = (p.page i).Datasize := by
  have h2 : i < p.pages.length := by rwa [Datasizes_length] at h
  simp [Datasizes, page_lt h2]

theorem Datasizes_setPage (p : Tensor) (i : Nat) (pg : Page) :
    (p.setPage i pg).Datasizes = p.Datasizes.set i pg.Datasize := by
  simp [Datasizes, setPage, List.map_set]

theorem content_setPage (p : Tensor) (i : Nat) (pg : Page) :
    (p.setPage i pg).content = p.content.set i (pg.Datasize, pg.elems) := by
  simp [content, setPage, List.map_set]

/-- After a successful copy the sum of all `Datasize` has grown by the length of the
slice. -/
theorem Copied.sum_advance {p p1 : Tensor} {data w s : Array} {i : Nat} {wr : List Int}
    (h : Copied .halfOpen p data i p1 w s wr) :
    (p1.advance i wr s).DatasizeSum = p.DatasizeSum + s.len := by
  have hi : i < p.Datasizes.length := by rw [Datasizes_length]; exact h.index_lt
  have hp1 : p1.Datasizes = p.Datasizes := by rw [h.p1_eq]; exact lookup_Datasizes p i
  unfold Tensor.DatasizeSum advance
  rw [Datasizes_setPage, hp1, sum_set_int _ _ _ hi, Datasizes_getElem p i hi]
  simp only [h.p1_Datasize i, Array.Len]
  omega

/-- One activation: no `Datasize` decreases, and the growth of their sum plus the
length of what is passed on to the recursive call is at most `data.Len()`. -/
theorem step_Datasize_sum (c : Convention) (p : Tensor) (data : Array) :
    (step c p data).tensor.pages.length = p.pages.length ∧
    (∀ j, (p.page j).Datasize ≤ ((step c p data).tensor.page j).Datasize) ∧
    (step c p data).tensor.DatasizeSum ≤ p.DatasizeSum + data.len ∧
    (∀ p1 r, step c p data = .recurse p1 r →
      p1.DatasizeSum + r.len ≤ p.DatasizeSum + data.len) := by
  have hrec : ∀ p1 r, step c p data = .recurse p1 r →
      p1.DatasizeSum + r.len ≤ p.DatasizeSum + data.len := by
    intro p1 r h
    obtain ⟨i, p0, w, s, wr, _, hC, hlt, rfl, hr⟩ := step_recurse h
    rw [hC.sum_advance]
    rw [Array.Slice_halfOpen_ok] at hr
    obtain ⟨⟨h0, h1, _⟩, rfl⟩ := hr
    simp only [Array.Len] at *
    omega
  rcases step_tensor c p data with h | ⟨i, _, h⟩ | ⟨i, p1, w, s, wr, _, hC, h⟩
  · rw [h]
    exact ⟨rfl, fun _ => le_refl _, by omega, hrec⟩
  · rw [h, lookup_length]
    refine ⟨rfl, fun j => by rw [lookup_Datasize], ?_, hrec⟩
    unfold Tensor.DatasizeSum
    rw [lookup_Datasizes]
    omega
  · rw [h, hC.frontier_length, hC.sum_advance]
    refine ⟨rfl, ?_, ?_, hrec⟩
    · intro j
      rw [hC.frontier_page]
      by_cases hji : j = i
      · subst hji
        rw [if_pos rfl]
        simp only [Array.Len]
        omega
      · rw [if_neg hji, hC.p1_Datasize]
    · have := hC.slice_len
      omega

theorem addDataFuel_Datasize_sum (c : Convention) :
    ∀ (n : Nat) (p : Tensor) (data : Array) (r : Tensor × Option Error),
      addDataFuel c n p data = some r →
      r.1.pages.length = p.pages.length ∧
      (∀ j, (p.page j).Datasize ≤ (r.1.page j).Datasize) ∧
      r.1.DatasizeSum ≤ p.DatasizeSum + data.len := by
  intro n
  induction n with
  | zero => intro p data r h; simp [addDataFuel] at h
  | succ n ih =>
    intro p data r h
    unfold addDataFuel at h
    obtain ⟨h1, h2, h3, h4⟩ := step_Datasize_sum c p data
    cases hs : step c p data with
    | ret q err =>
      rw [hs] at h h1 h2 h3
      simp only [Option.some.injEq] at h
      subst h
      exact ⟨h1, h2, h3⟩
    | recurse q rest =>
      rw [hs] at h h1 h2
      obtain ⟨k1, k2, k3⟩ := ih q rest r h
      have := h4 q rest hs
      refine ⟨k1.trans h1, fun j => (h2 j).trans (k2 j), ?_⟩
      omega

/-- C19: for every tensor state and every data array, `addData(data)` returns, and
whether it returns `nil` or an error, no page's `Datasize` is smaller than before and
the sum of the `Datasize` of all pages has grown by at most `data.Len()`. -/
theorem addData_Datasize_accounting (c : Convention) (p : Tensor) (data : List Int) :
    ∃ p1 err, addData c p (Array.ofList data) = some (p1, err) ∧
      p1.pages.length = p.pages.length ∧
      (∀ j, (p.page j).Datasize ≤ (p1.page j).Datasize) ∧
      p1.DatasizeSum - p.DatasizeSum ≤ data.length := by
  obtain ⟨r, hr⟩ := addData_total c p (Array.ofList data)
  obtain ⟨h1, h2, h3⟩ := addDataFuel_Datasize_sum c _ p (Array.ofList data) r hr
  refine ⟨r.1, r.2, hr, h1, h2, ?_⟩
  simp only [Array.ofList] at h3
  omega

/-! ## The first write into an empty page -/

/-- C17 (amended): with `Slice(start, end)` read as a half-open range, when the
frontier page is resident, has `Datasize == 0` and capacity at least `data.Len()`,
`addData(data)` returns `nil` without a recursive call, for every `data` and in
particular every non-empty one.  The resulting tensor differs from the initial one
only in the frontier page and in the logged `cache.Get`: the page array is `data`
followed by the old elements from position `data.Len()` on, and the page's
`Datasize` is `data.Len()`. -/
theorem addData_first_write (p : Tensor) (data : List Int) (i : Nat)
    (hf : p.firstUnfilledPage = some i) (hres : (p.page i).resident = true)
    (hds : (p.page i).Datasize = 0)
    (hle : data.length ≤ (p.page i).elems.length) :
    addData .halfOpen p (Array.ofList data) =
      some (⟨p.dims,
        p.pages.set i { p.page i with
          elems := data ++ (p.page i).elems.drop data.length,
          Datasize := (data.length : Int) },
        p.trace ++ [.get (p.page i).Id]⟩, none) ∧
    addDataCalls .halfOpen p (Array.ofList data) = 0 := by
  have hlook : p.lookup i =
      (p.log (.get (p.page i).Id), .ok (Array.ofList (p.page i).elems)) := by
    unfold lookup
    simp [hres]
  have hwin : window .halfOpen ((p.log (.get (p.page i).Id)).page i)
      (Array.ofList (p.page i).elems) = .ok (Array.ofList (p.page i).elems) := by
    unfold window
    rw [log_page, hds]
    simp
  have hfit : fit (Array.ofList data) (Array.ofList (p.page i).elems) = (data.length : Int) := by
    simp only [fit, Array.Len, Array.ofList]
    split
    · rfl
    · omega
  have hsl : Array.Slice .halfOpen (Array.ofList data) 0 (data.length : Int) =
      .ok (Array.ofList data) := by
    rw [Array.Slice_halfOpen_ok]
    simp [Array.ofList, Array.Len]
  have hcp : (Array.ofList (p.page i).elems).Copy (Array.ofList data) =
      .ok (data ++ (p.page i).elems.drop data.length) := by
    rw [Array.Copy_ok]
    refine ⟨by simpa [Array.ofList] using hle, ?_⟩
    rw [Array.elems_ofList]
    simp [Array.ofList]
  have hstep : step .halfOpen p (Array.ofList data) =
      .ret ⟨p.dims,
        p.pages.set i { p.page i with
          elems := data ++ (p.page i).elems.drop data.length,
          Datasize := (data.length : Int) },
        p.trace ++ [.get (p.page i).Id]⟩ none := by
    unfold step
    rw [hf]
    simp only
    unfold fill
    rw [hlook]
    simp only
    rw [hwin]
    simp only
    rw [hfit, hsl]
    simp only
    rw [hcp]
    simp only
    rw [if_neg (lt_irrefl _)]
    unfold advance
    rw [log_page, hds]
    simp [setPage, log, Array.Len, Array.ofList]
  constructor
  · unfold addData addDataFuel
    rw [hstep]
  · unfold addDataCalls recursions
    rw [hstep]

theorem addData_first_write_witness :
    scenarioA.firstUnfilledPage = some 0 ∧ (scenarioA.page 0).resident = true ∧
    (scenarioA.page 0).Datasize = 0 ∧ [1, 2, 3].length ≤ (scenarioA.page 0).elems.length ∧
    addData .halfOpen scenarioA (Array.ofList [1, 2, 3]) =
      some (⟨scenarioA.dims,
        scenarioA.pages.set 0 { scenarioA.page 0 with
          elems := [1, 2, 3] ++ (scenarioA.page 0).elems.drop [1, 2, 3].length,
          Datasize := (([1, 2, 3] : List Int).length : Int) },
        scenarioA.trace ++ [.get (scenarioA.page 0).Id]⟩, none) ∧
    addDataCalls .halfOpen scenarioA (Array.ofList [1, 2, 3]) = 0 :=
  ⟨by decide, by decide, by decide, by decide,
    addData_first_write scenarioA [1, 2, 3] 0 (by decide) (by decide) (by decide) (by decide)⟩

/-! ## The number of recursive calls -/

theorem countP_set_add {α : Type} (f : α → Bool) (l : List α) (i : Nat) (x : α)
    (h : i < l.length) :
    (l.set i x).countP f + (if f l[i] then 1 else 0) =
      l.countP f + (if f x then 1 else 0) := by
  induction l generalizing i with
  | nil => simp at h
  | cons a rest ih =>
    cases i with
    | zero =>
      simp only [List.set_cons_zero, List.getElem_cons_zero, List.countP_cons]
      omega
    | succ k =>
      simp only [List.length_cons, Nat.succ_lt_succ_iff] at h
      have := ih k h
      simp only [List.set_cons_succ, List.getElem_cons_succ, List.countP_cons]
      omega

theorem content_length (p : Tensor) : p.content.length = p.pages.length := by
  simp [content]

theorem content_getElem (p : Tensor) (i : Nat) (h : i < p.content.length) :
    p.content[i] = ((p.page i).Datasize, (p.page i).elems) := by
  have h2 : i < p.pages.length := by rwa [content_length] at h
  simp [content, page_lt h2]

/-- A recursive call is made only after the frontier page has become completely
filled: it leaves one unfilled page less. -/
theorem step_recurse_unfilled {c : Convention} {p p1 : Tensor} {data r : Array}
    (h : step c p data = .recurse p1 r) (hd : data.WF) (hb : p.Bounded) :
    p1.unfilledCount + 1 = p.unfilledCount := by
  obtain ⟨i, p0, w, s, wr, _, hC, hlt, rfl, _⟩ := step_recurse h
  have hi : i < p.content.length := by rw [content_length]; exact hC.index_lt
  have hp0 : p0.content = p.content := by rw [hC.p1_eq]; exact lookup_content p i
  have hbi := (bounded_iff.mp hb) i hC.index_lt
  have hu := hC.unfilled
  have hwl := hC.written_length hd
  have hsl := hC.slice_len
  have hwb := hC.window_bounds
  have hfull : (p.page i).Datasize + s.Len = (wr.length : Int) := by
    simp only [Array.Len, Page.capacity] at hlt hu hbi hwb ⊢
    rw [hwl]
    by_cases hpos : (p.page i).Datasize > 0
    · have := hwb.1 hpos; omega
    · have := hwb.2 hpos; omega
  have key := countP_set_add (fun x : Int × List Int => decide (x.1 < (x.2.length : Int)))
    p.content i ((p.page i).Datasize + s.Len, wr) hi
  rw [content_getElem p i hi] at key
  unfold unfilledCount advance
  rw [content_setPage, hp0]
  simp only [hC.p1_Datasize i]
  rw [hfull]
  simp only [Page.capacity] at hu
  simp only [hfull, lt_irrefl, decide_False, Bool.false_eq_true, if_false, add_zero] at key
  simp only [hu, decide_True, if_true] at key
  exact key

theorem recursions_le (c : Convention) :
    ∀ (n : Nat) (p : Tensor) (data : Array), data.WF → p.Bounded →
      recursions c n p data ≤ p.unfilledCount := by
  intro n
  induction n with
  | zero => intro p data _ _; simp [recursions]
  | succ n ih =>
    intro p data hd hb
    unfold recursions
    cases hs : step c p data with
    | ret q err => simp
    | recurse q rest =>
      simp only
      have h1 := step_recurse_unfilled hs hd hb
      have h2 : q.Bounded := by
        have := step_Bounded c p data hd hb
        rwa [hs] at this
      have h3 := ih q rest (step_recurse_WF hs hd) h2
      omega

/-- C16: on a tensor whose pages satisfy `0 ≤ Datasize ≤ capacity`, `addData(data)`
returns for every data array, and the number of recursive calls it makes is at most
the number of unfilled pages at the start of the call: each recursive call follows
an activation that filled the frontier page completely. -/
theorem addData_recursion_bound (c : Convention) (p : Tensor) (data : List Int)
    (hb : p.Bounded) :
    (∃ r, addData c p (Array.ofList data) = some r) ∧
      addDataCalls c p (Array.ofList data) ≤ p.unfilledCount :=
  ⟨addData_total c p (Array.ofList data),
    recursions_le c _ p (Array.ofList data) (Array.ofList_WF data) hb⟩

theorem addData_recursion_bound_witness :
    scenarioA.Bounded ∧
    (∃ r, addData .halfOpen scenarioA (Array.ofList [1, 2, 3, 4, 5, 6]) = some r) ∧
      addDataCalls .halfOpen scenarioA (Array.ofList [1, 2, 3, 4, 5, 6]) ≤
        scenarioA.unfilledCount :=
  ⟨by decide, addData_recursion_bound .halfOpen scenarioA [1, 2, 3, 4, 5, 6] (by decide)⟩

/-! ## Swapping pages in -/

theorem loadable_iff {p : Tensor} :
    p.Loadable ↔ ∀ j, j < p.pages.length →
      (p.page j).resident = true ∨ (p.page j).swap = .loads := by
  unfold Loadable
  constructor
  · intro h j hj
    exact h _ (mem_pages_iff.mpr ⟨j, hj, rfl⟩)
  · intro h pg hpg
    obtain ⟨j, hj, rfl⟩ := mem_pages_iff.mp hpg
    exact h j hj

theorem lookup_resident {p : Tensor} {i : Nat} (h : (p.page i).resident = true) :
    p.lookup i = (p.log (.get (p.page i).Id), .ok (Array.ofList (p.page i).elems)) := by
  unfold lookup
  simp [h]

theorem lookup_loads {p : Tensor} {i : Nat} (h : (p.page i).resident = false)
    (hs : (p.page i).swap = .loads) :
    p.lookup i =
      (⟨p.dims, p.pages.set i { p.page i with resident := true },
          p.trace ++ [.get (p.page i).Id, .swap (p.page i).Id, .get (p.page i).Id]⟩,
        .ok (Array.ofList (p.page i).elems)) := by
  unfold lookup
  simp [h, hs, log, setPage]

theorem lookup_loadable_ok {p : Tensor} {i : Nat} (hl : p.Loadable) (hi : i < p.pages.length) :
    p.lookup i = ((p.lookup i).1, .ok (Array.ofList (p.page i).elems)) := by
  rcases loadable_iff.mp hl i hi with h | h
  · rw [lookup_resident h]
  · cases hr : (p.page i).resident with
    | true => rw [lookup_resident hr]
    | false => rw [lookup_loads hr h]

theorem lookup_Loadable {p : Tensor} (i : Nat) (hl : p.Loadable) : (p.lookup i).1.Loadable := by
  rw [loadable_iff] at hl ⊢
  intro j hj
  rw [lookup_length] at hj
  rcases lookup_page p i j with h | ⟨_, h⟩
  · rw [h]; exact hl j hj
  · rw [h]; left; rfl

theorem advance_Loadable {p : Tensor} (i : Nat) (wr : List Int) (s : Array)
    (hl : p.Loadable) : (p.advance i wr s).Loadable := by
  rw [loadable_iff] at hl ⊢
  intro j hj
  rw [advance_length] at hj
  rw [advance_page]
  split
  · rename_i h
    exact hl i h.2
  · exact hl j hj

theorem firstUnfilled_congr :
    ∀ (ps qs : List Page),
      ps.map (fun pg => (pg.Datasize, pg.elems)) = qs.map (fun pg => (pg.Datasize, pg.elems)) →
      firstUnfilled ps = firstUnfilled qs := by
  intro ps
  induction ps with
  | nil =>
    intro qs h
    cases qs with
    | nil => rfl
    | cons b qs => simp at h
  | cons a ps ih =>
    intro qs h
    cases qs with
    | nil => simp at h
    | cons b qs =>
      simp only [List.map_cons, List.cons.injEq, Prod.mk.injEq] at h
      obtain ⟨⟨h1, h2⟩, h3⟩ := h
      unfold firstUnfilled
      simp only [Page.capacity, h1, h2, ih qs h3]

theorem content_page {p q : Tensor} (h : p.content = q.content) (j : Nat) :
    (p.page j).Datasize = (q.page j).Datasize ∧ (p.page j).elems = (q.page j).elems := by
  have hlen : p.pages.length = q.pages.length := by
    rw [← content_length p, ← content_length q, h]
  by_cases hj : j < p.pages.length
  · have h1 : j < p.content.length := by rwa [content_length]
    have h2 : j < q.content.length := by rw [content_length, ← hlen]; exact hj
    have e1 := content_getElem p j h1
    have e2 := content_getElem q j h2
    have : p.content[j] = q.content[j] := by simp only [h]
    rw [e1, e2] at this
    simpa using this
  · rw [page_ge (not_lt.mp hj), page_ge (by rw [← hlen]; exact not_lt.mp hj)]
    exact ⟨rfl, rfl⟩

theorem window_congr (c : Convention) {pg pg1 : Page} (d : Array)
    (h : pg.Datasize = pg1.Datasize) : window c pg d = window c pg1 d := by
  unfold window
  rw [h]

theorem advance_content {p q : Tensor} (i : Nat) (wr : List Int) (s : Array)
    (h : p.content = q.content) :
    (p.advance i wr s).content = (q.advance i wr s).content := by
  unfold advance
  rw [content_setPage, content_setPage, h, (content_page h i).1]

/-- Two tensors with the same page contents and `Datasize`, whose missing pages can
all be loaded, go through the same activation: the same error or the same recursive
call, and again the same page contents and `Datasize`. -/
theorem step_sim (c : Convention) {p q : Tensor} (data : Array)
    (hp : p.Loadable) (hq : q.Loadable) (h : p.content = q.content) :
    (∃ p1 q1 err, step c p data = .ret p1 err ∧ step c q data = .ret q1 err ∧
      p1.content = q1.content ∧ p1.Loadable ∧ q1.Loadable) ∨
    (∃ p1 q1 r, step c p data = .recurse p1 r ∧ step c q data = .recurse q1 r ∧
      p1.content = q1.content ∧ p1.Loadable ∧ q1.Loadable) := by
  have hfu : p.firstUnfilledPage = q.firstUnfilledPage := firstUnfilled_congr _ _ h
  have hlen : p.pages.length = q.pages.length := by
    rw [← content_length p, ← content_length q, h]
  unfold step
  rw [← hfu]
  cases hf : p.firstUnfilledPage with
  | none => exact Or.inl ⟨p, q, _, rfl, rfl, h, hp, hq⟩
  | some i =>
    simp only
    have hi : i < p.pages.length := (firstUnfilled_some hf).1
    obtain ⟨pL, hlp, hcp, hLp, hDp⟩ : ∃ pL, p.lookup i = (pL, .ok (Array.ofList (p.page i).elems)) ∧
        pL.content = p.content ∧ pL.Loadable ∧ (pL.page i).Datasize = (p.page i).Datasize :=
      ⟨_, lookup_loadable_ok hp hi, lookup_content p i, lookup_Loadable i hp,
        lookup_Datasize p i i⟩
    obtain ⟨qL, hlq, hcq, hLq, hDq⟩ : ∃ qL, q.lookup i = (qL, .ok (Array.ofList (q.page i).elems)) ∧
        qL.content = q.content ∧ qL.Loadable ∧ (qL.page i).Datasize = (q.page i).Datasize :=
      ⟨_, lookup_loadable_ok hq (hlen ▸ hi), lookup_content q i, lookup_Loadable i hq,
        lookup_Datasize q i i⟩
    have hLL : pL.content = qL.content := by rw [hcp, hcq, h]
    have hw : window c (qL.page i) (Array.ofList (q.page i).elems) =
        window c (pL.page i) (Array.ofList (p.page i).elems) := by
      rw [← (content_page h i).2]
      exact window_congr c _ (by rw [hDq, hDp, (content_page h i).1])
    unfold fill
    rw [hlp, hlq]
    simp only
    rw [hw]
    cases hwin : window c (pL.page i) (Array.ofList (p.page i).elems) with
    | err e => exact Or.inl ⟨pL, qL, _, rfl, rfl, hLL, hLp, hLq⟩
    | ok w =>
      simp only
      cases hs : Array.Slice c data 0 (fit data w) with
      | err e => exact Or.inl ⟨pL, qL, _, rfl, rfl, hLL, hLp, hLq⟩
      | ok s =>
        simp only
        cases hc : w.Copy s with
        | err e => exact Or.inl ⟨pL, qL, _, rfl, rfl, hLL, hLp, hLq⟩
        | ok wr =>
          simp only
          have hA : (pL.advance i wr s).content = (qL.advance i wr s).content :=
            advance_content i wr s hLL
          have hAp := advance_Loadable i wr s hLp
          have hAq := advance_Loadable i wr s hLq
          by_cases hlt : s.Len < data.Len
          · rw [if_pos hlt, if_pos hlt]
            cases hr : Array.Slice c data s.Len (data.Len - 1) with
            | err e => exact Or.inl ⟨_, _, _, rfl, rfl, hA, hAp, hAq⟩
            | ok r => exact Or.inr ⟨_, _, r, rfl, rfl, hA, hAp, hAq⟩
          · rw [if_neg hlt, if_neg hlt]
            exact Or.inl ⟨_, _, _, rfl, rfl, hA, hAp, hAq⟩

theorem addDataFuel_sim (c : Convention) :
    ∀ (n : Nat) (p q : Tensor) (data : Array), p.Loadable → q.Loadable →
      p.content = q.content → ∀ p1 err, addDataFuel c n p data = some (p1, err) →
      ∃ q1, addDataFuel c n q data = some (q1, err) ∧ p1.content = q1.content := by
  intro n
  induction n with
  | zero => intro p q data _ _ _ p1 err h; simp [addDataFuel] at h
  | succ n ih =>
    intro p q data hp hq h p1 err hr
    unfold addDataFuel at hr ⊢
    rcases step_sim c data hp hq h with ⟨a, b, e, h1, h2, h3, _, _⟩ | ⟨a, b, r, h1, h2, h3, h4, h5⟩
    · rw [h1] at hr
      rw [h2]
      simp only [Option.some.injEq, Prod.mk.injEq] at hr
      obtain ⟨rfl, rfl⟩ := hr
      exact ⟨b, rfl, h3⟩
    · rw [h1] at hr
      rw [h2]
      exact ih a b r h4 h5 h3 p1 err hr

theorem distinct_ids {p : Tensor} (h : p.DistinctIds) {i j : Nat}
    (hi : i < p.pages.length) (hj : j < p.pages.length)
    (he : (p.page i).Id = (p.page j).Id) : i = j := by
  unfold DistinctIds at h
  have hi1 : i < (p.pages.map (·.Id)).length := by simpa using hi
  have hj1 : j < (p.pages.map (·.Id)).length := by simpa using hj
  have key : (p.pages.map (·.Id))[i] = (p.pages.map (·.Id))[j] := by
    simp only [List.getElem_map]
    rw [page_lt hi, page_lt hj] at he
    exact he
  exact (List.Nodup.getElem_inj_iff h).mp key

theorem swapCalls_get (id k : Nat) (t : List Event) :
    swapCalls id (t ++ [Event.get k]) = swapCalls id t := by
  simp [swapCalls, List.count_append, List.count_singleton]

theorem swapCalls_miss (id k : Nat) (t : List Event) :
    swapCalls id (t ++ [Event.get k, Event.swap k, Event.get k]) =
      swapCalls id t + (if k = id then 1 else 0) := by
  simp only [swapCalls, List.count_append, List.count_cons, List.count_nil]
  by_cases h : k = id
  · simp [h]
  · simp [h]

theorem step_Loadable (c : Convention) (p : Tensor) (data : Array) (hl : p.Loadable) :
    (step c p data).tensor.Loadable := by
  rcases step_tensor c p data with h | ⟨i, _, h⟩ | ⟨i, p1, w, s, wr, _, hC, h⟩
  · rw [h]; exact hl
  · rw [h]; exact lookup_Loadable i hl
  · rw [h]
    apply advance_Loadable
    rw [hC.p1_eq]
    exact lookup_Loadable i hl

theorem residentAll_content (p : Tensor) : p.residentAll.content = p.content := by
  simp [content, residentAll, List.map_map, Function.comp]

theorem residentAll_Loadable (p : Tensor) : p.residentAll.Loadable := by
  intro pg hpg
  simp only [residentAll, List.mem_map] at hpg
  obtain ⟨a, _, rfl⟩ := hpg
  left; rfl

/-- On a tensor whose missing pages can be loaded, the cache lookup for page `i`
calls `Swap` once if page `i` was missing and not at all otherwise, leaves page `i`
resident, and changes neither the residency of nor the `Swap` calls for any other
page. -/
theorem lookup_visit {p : Tensor} (hl : p.Loadable) (hd : p.DistinctIds) (i : Nat)
    (hi : i < p.pages.length) (j : Nat) (hj : j < p.pages.length) :
    ((p.lookup i).1.page j).Id = (p.page j).Id ∧
    ((p.lookup i).1.page j).resident = ((p.page j).resident || decide (j = i)) ∧
    swapCalls (p.page j).Id (p.lookup i).1.trace =
      swapCalls (p.page j).Id p.trace +
        (if (p.page j).resident = false ∧ j = i then 1 else 0) := by
  cases hr : (p.page i).resident with
  | true =>
    rw [lookup_resident hr]
    simp only [log_page]
    refine ⟨trivial, ?_, ?_⟩
    · by_cases hji : j = i
      · subst hji; simp [hr]
      · simp [hji]
    · show swapCalls _ (p.trace ++ [Event.get (p.page i).Id]) = _
      rw [swapCalls_get]
      by_cases hji : j = i
      · subst hji; simp [hr]
      · simp [hji]
  | false =>
    have hsw : (p.page i).swap = .loads := by
      rcases loadable_iff.mp hl i hi with h | h
      · rw [hr] at h; cases h
      · exact h
    rw [lookup_loads hr hsw]
    have hpage : (Tensor.mk p.dims (p.pages.set i { p.page i with resident := true })
        (p.trace ++ [.get (p.page i).Id, .swap (p.page i).Id, .get (p.page i).Id])).page j =
        if j = i ∧ i < p.pages.length then { p.page i with resident := true } else p.page j :=
      setPage_page p i j _
    simp only [hpage]
    rw [swapCalls_miss]
    by_cases hji : j = i
    · subst hji
      rw [if_pos ⟨rfl, hj⟩]
      refine ⟨?_, ?_, ?_⟩
      · rfl
      · simp
      · simp [hr]
    · rw [if_neg (fun hh => hji hh.1)]
      have hne : ¬ (p.page i).Id = (p.page j).Id := fun he =>
        hji (distinct_ids hd hi hj he).symm
      refine ⟨?_, ?_, ?_⟩
      · rfl
      · simp [hji]
      · simp [hne, hji]

/-- An activation with frontier page `i` leaves the tensor after the cache lookup
for page `i`, possibly with page `i` advanced. -/
theorem step_tensor_frontier (c : Convention) (p : Tensor) (data : Array) (i : Nat)
    (hf : p.firstUnfilledPage = some i) :
    (step c p data).tensor = (p.lookup i).1 ∨
      ∃ wr s, (step c p data).tensor = (p.lookup i).1.advance i wr s := by
  refine step_cases c p data
    (fun o => o.tensor = (p.lookup i).1 ∨ ∃ wr s, o.tensor = (p.lookup i).1.advance i wr s)
    ?_ ?_ ?_ ?_ ?_ ?_ ?_ ?_
  · intro h; rw [hf] at h; cases h
  · intro k p1 e hk hl
    rw [hf] at hk; cases hk
    left; rw [hl]; rfl
  · intro k p1 e hk hl _
    rw [hf] at hk; cases hk
    left; rw [hl]; rfl
  · intro k p1 w e hk hl _ _
    rw [hf] at hk; cases hk
    left; rw [hl]; rfl
  · intro k p1 w s e hk hl _ _ _
    rw [hf] at hk; cases hk
    left; rw [hl]; rfl
  · intro k p1 w s wr e hC _ _
    have hk := hC.front
    rw [hf] at hk; cases hk
    right; exact ⟨wr, s, by rw [hC.look]; rfl⟩
  · intro k p1 w s wr r hC _ _
    have hk := hC.front
    rw [hf] at hk; cases hk
    right; exact ⟨wr, s, by rw [hC.look]; rfl⟩
  · intro k p1 w s wr hC _
    have hk := hC.front
    rw [hf] at hk; cases hk
    right; exact ⟨wr, s, by rw [hC.look]; rfl⟩

/-- One activation with frontier page `i`: `Swap` is called once if page `i` was
missing and never otherwise, page `i` is resident afterwards, and every other page
keeps its residency, its contents and its `Datasize`. -/
theorem step_visit (c : Convention) {p : Tensor} (data : Array) (hl : p.Loadable)
    (hd : p.DistinctIds) (i : Nat) (hf : p.firstUnfilledPage = some i) :
    (step c p data).tensor.pages.length = p.pages.length ∧
    ∀ j, j < p.pages.length →
      ((step c p data).tensor.page j).Id = (p.page j).Id ∧
      ((step c p data).tensor.page j).resident = ((p.page j).resident || decide (j = i)) ∧
      swapCalls (p.page j).Id (step c p data).tensor.trace =
        swapCalls (p.page j).Id p.trace +
          (if (p.page j).resident = false ∧ j = i then 1 else 0) ∧
      (j ≠ i → ((step c p data).tensor.page j).Datasize = (p.page j).Datasize ∧
        ((step c p data).tensor.page j).elems = (p.page j).elems) := by
  have hi : i < p.pages.length := (firstUnfilled_some hf).1
  rcases step_tensor_frontier c p data i hf with h | ⟨wr, s, h⟩
  · rw [h]
    refine ⟨lookup_length p i, fun j hj => ?_⟩
    obtain ⟨h1, h2, h3⟩ := lookup_visit hl hd i hi j hj
    exact ⟨h1, h2, h3, fun _ => ⟨lookup_Datasize p i j, lookup_elems p i j⟩⟩
  · rw [h]
    refine ⟨by rw [advance_length, lookup_length], fun j hj => ?_⟩
    obtain ⟨h1, h2, h3⟩ := lookup_visit hl hd i hi j hj
    have ht : ((p.lookup i).1.advance i wr s).trace = (p.lookup i).1.trace := rfl
    rw [ht, advance_page]
    by_cases hji : j = i ∧ i < (p.lookup i).1.pages.length
    · rw [if_pos hji]
      obtain ⟨rfl, _⟩ := hji
      exact ⟨h1, h2, h3, fun hne => absurd rfl hne⟩
    · rw [if_neg hji]
      exact ⟨h1, h2, h3, fun _ => ⟨lookup_Datasize p i j, lookup_elems p i j⟩⟩

theorem DistinctIds_of_ids {p q : Tensor} (hlen : q.pages.length = p.pages.length)
    (h : ∀ j, j < p.pages.length → (q.page j).Id = (p.page j).Id) (hd : p.DistinctIds) :
    q.DistinctIds := by
  unfold DistinctIds at *
  rw [map_pages_eq (fun pg => pg.Id) hlen (fun j hj => h j (hlen ▸ hj))]
  exact hd

theorem step_DistinctIds (c : Convention) {p : Tensor} (data : Array) (hl : p.Loadable)
    (hd : p.DistinctIds) : (step c p data).tensor.DistinctIds := by
  cases hf : p.firstUnfilledPage with
  | none =>
    have : step c p data = .ret p (some .ErrFilled) := by
      unfold step; rw [hf]
    rw [this]; exact hd
  | some i =>
    obtain ⟨h1, h2⟩ := step_visit c data hl hd i hf
    exact DistinctIds_of_ids h1 (fun j hj => (h2 j hj).1) hd

/-- Along the whole recursion: the pages keep their identifiers; a page is resident
at the end exactly when it was resident or has been visited; `Swap` has been called
once for each page that was missing and has been visited and for no other page; a
page that has not been visited keeps its contents and `Datasize`. -/
theorem addDataFuel_visits (c : Convention) :
    ∀ (n : Nat) (p : Tensor) (data : Array) (r : Tensor × Option Error),
      p.Loadable → p.DistinctIds → addDataFuel c n p data = some r →
      r.1.pages.length = p.pages.length ∧
      ∀ j, j < p.pages.length →
        (r.1.page j).Id = (p.page j).Id ∧
        (r.1.page j).resident = ((p.page j).resident || decide (j ∈ frontiers c n p data)) ∧
        swapCalls (p.page j).Id r.1.trace =
          swapCalls (p.page j).Id p.trace +
            (if (p.page j).resident = false ∧ j ∈ frontiers c n p data then 1 else 0) ∧
        (j ∉ frontiers c n p data →
          (r.1.page j).Datasize = (p.page j).Datasize ∧ (r.1.page j).elems = (p.page j).elems) := by
  intro n
  induction n with
  | zero => intro p data r _ _ h; simp [addDataFuel] at h
  | succ n ih =>
    intro p data r hl hd h
    unfold addDataFuel at h
    unfold frontiers
    cases hf : p.firstUnfilledPage with
    | none =>
      have hs : step c p data = .ret p (some .ErrFilled) := by
        unfold step; rw [hf]
      rw [hs] at h
      simp only [Option.some.injEq] at h
      subst h
      simp
    | some i =>
      simp only
      obtain ⟨s1, s2⟩ := step_visit c data hl hd i hf
      have hL := step_Loadable c p data hl
      have hD := step_DistinctIds c data hl hd
      cases hs : step c p data with
      | ret q e =>
        rw [hs] at h s1 s2
        simp only [Option.some.injEq] at h
        subst h
        refine ⟨s1, fun j hj => ?_⟩
        obtain ⟨a1, a2, a3, a4⟩ := s2 j hj
        simp only [Outcome.tensor] at a1 a2 a3 a4
        simp only [List.mem_singleton]
        exact ⟨a1, a2, a3, a4⟩
      | recurse q rest =>
        rw [hs] at h s1 s2 hL hD
        simp only [Outcome.tensor] at s1 s2 hL hD
        obtain ⟨k1, k2⟩ := ih q rest r hL hD h
        refine ⟨k1.trans s1, fun j hj => ?_⟩
        obtain ⟨a1, a2, a3, a4⟩ := s2 j hj
        obtain ⟨b1, b2, b3, b4⟩ := k2 j (by rw [s1]; exact hj)
        rw [a1] at b3
        simp only [List.mem_cons]
        refine ⟨b1.trans a1, ?_, ?_, ?_⟩
        · rw [b2, a2]
          by_cases hji : j = i <;> by_cases hm : j ∈ frontiers c n q rest <;>
            simp [hji, hm]
        · rw [b3, a3, a2]
          by_cases hji : j = i <;> by_cases hm : j ∈ frontiers c n q rest <;>
            cases (p.page j).resident <;> simp [hji, hm]
        · intro hnot
          have hji : j ≠ i := fun hh => hnot (Or.inl hh)
          have hm : j ∉ frontiers c n q rest := fun hh => hnot (Or.inr hh)
          obtain ⟨c1, c2⟩ := a4 hji
          obtain ⟨d1, d2⟩ := b4 hm
          exact ⟨d1.trans c1, d2.trans c2⟩

/-- C12: when every page that is not resident can be loaded by `Swap` (a successful
`Swap(id)` makes the next `Get(id)` hit) and page identifiers are distinct,
`addData(data)` returns the same result, and leaves the same page contents and the
same `Datasize` values, as `addData(data)` run from the state in which all pages are
resident.  For every page: `Swap` is called exactly once for it if it was missing and
is visited by the call (it is the frontier page of some activation), and not at all
otherwise, in particular never for a resident page; it is resident afterwards
exactly when it was resident or has been visited; and a page that is not visited
keeps its contents and its `Datasize`. -/
theorem addData_swap_transparent (c : Convention) (p : Tensor) (data : List Int)
    (hl : p.Loadable) (hd : p.DistinctIds) :
    ∃ p1 q1 err, addData c p (Array.ofList data) = some (p1, err) ∧
      addData c p.residentAll (Array.ofList data) = some (q1, err) ∧
      p1.content = q1.content ∧
      ∀ j, j < p.pages.length →
        swapCalls (p.page j).Id p1.trace =
          swapCalls (p.page j).Id p.trace +
            (if (p.page j).resident = false ∧ j ∈ visited c p (Array.ofList data)
              then 1 else 0) ∧
        (p1.page j).resident =
          ((p.page j).resident || decide (j ∈ visited c p (Array.ofList data))) ∧
        (j ∉ visited c p (Array.ofList data) →
          (p1.page j).Datasize = (p.page j).Datasize ∧ (p1.page j).elems = (p.page j).elems) := by
  obtain ⟨r, hr⟩ := addData_total c p (Array.ofList data)
  obtain ⟨q1, hq, hc⟩ := addDataFuel_sim c _ p p.residentAll (Array.ofList data) hl
    (residentAll_Loadable p) (residentAll_content p).symm r.1 r.2 hr
  obtain ⟨_, hv⟩ := addDataFuel_visits c _ p (Array.ofList data) r hl hd hr
  refine ⟨r.1, q1, r.2, hr, hq, hc, fun j hj => ?_⟩
  obtain ⟨_, h2, h3, h4⟩ := hv j hj
  exact ⟨h3, h2, h4⟩

theorem addData_swap_transparent_witness :
    mixedTensor.Loadable ∧ mixedTensor.DistinctIds ∧
    visited .halfOpen mixedTensor (Array.ofList [1, 2, 3]) = [0, 1] ∧
    ∃ p1 q1 err,
      addData .halfOpen mixedTensor (Array.ofList [1, 2, 3]) = some (p1, err) ∧
      addData .halfOpen mixedTensor.residentAll (Array.ofList [1, 2, 3]) = some (q1, err) ∧
      p1.content = q1.content ∧
      ∀ j, j < mixedTensor.pages.length →
        swapCalls (mixedTensor.page j).Id p1.trace =
          swapCalls (mixedTensor.page j).Id mixedTensor.trace +
            (if (mixedTensor.page j).resident = false ∧
                j ∈ visited .halfOpen mixedTensor (Array.ofList [1, 2, 3])
              then 1 else 0) ∧
        (p1.page j).resident =
          ((mixedTensor.page j).resident ||
            decide (j ∈ visited .halfOpen mixedTensor (Array.ofList [1, 2, 3]))) ∧
        (j ∉ visited .halfOpen mixedTensor (Array.ofList [1, 2, 3]) →
          (p1.page j).Datasize = (mixedTensor.page j).Datasize ∧
            (p1.page j).elems = (mixedTensor.page j).elems) :=
  ⟨by decide, by decide, by decide,
    addData_swap_transparent .halfOpen mixedTensor [1, 2, 3] (by decide) (by decide)⟩

/-- On 3 empty pages of capacity 2 of which only the first is resident, `addData` of
`[1,2,3]` (half-open reading) visits pages 0 and 1: the log of cache calls is one
`Get` for the resident page 0, then `Get`, `Swap`, `Get` for the missing page 1, and
nothing for the missing page 2, which is not visited and stays missing. -/
theorem addData_mixedTensor_log :
    (addData .halfOpen mixedTensor (Array.ofList [1, 2, 3])).map (fun r => r.1.trace) =
      some [.get 0, .get 1, .swap 1, .get 1] ∧
    (addData .halfOpen mixedTensor (Array.ofList [1, 2, 3])).map
        (fun r => r.1.pages.map (·.resident)) = some [true, true, false] := by
  decide

/-- C17 as stated fails under the inclusive reading of `Slice`: on Scenario A, whose
frontier page is resident and empty with capacity 4, `addData([1,2,3])` takes
`data.Slice(0, 3)`, which is out of bounds for 3 elements, returns that error and
writes nothing. -/
theorem first_write_inclusive :
    addData .inclusive scenarioA (Array.ofList [1, 2, 3]) =
      some (⟨1, [residentPage 0 0 [0, 0, 0, 0], residentPage 1 0 [0, 0, 0, 0]],
        [.get 0]⟩, some .ErrBounds) := by
  decide

end Tensor
end paginated
